import Mathlib

/-!
Verification development for the download-link extraction and file-retrieval
pipeline of the document-chat frontend.

Source files embedded here:
* `src/utils/templateDownloadUtils.js` — `TemplateDownloadHandler.parseDownloadLinks`,
  `TemplateDownloadHandler.downloadFromUrl`, `TemplateDownloadHandler.generateFilename`,
  `MessageContentProcessor.removeDownloadLinks`.
* `src/components/SmartDashboard.jsx` — `handleDownloadFromLink`.

JavaScript strings are embedded as `List Char` (Unicode scalar values; the
source regexes are not `u`-flagged, but on well-formed text the scalar-level
semantics used here coincides with the UTF-16 code-unit semantics for every
pattern in the source).  Each JavaScript regex from the source is embedded as
a hand-written matcher that reproduces the backtracking (leftmost, greedy,
ordered-alternation) semantics of the original pattern.
-/

set_option maxRecDepth 20000

/-- JavaScript strings, embedded as lists of Unicode scalar values. -/
abbrev Str := List Char

/-- Coerce a Lean string literal to the embedding type. -/
def strL (s : String) : Str := s.toList

/-- The double-quote character (written via its code point to keep source tidy). -/
def dquote : Char := Char.ofNat 34

/-- The single-quote character. -/
def squote : Char := Char.ofNat 39

/-- Whitespace class of JavaScript regexes (`\s`) and of `String.prototype.trim`. -/
def isJsWs (c : Char) : Bool :=
  c = ' ' || c = '\t' || c = '\n' || c = '\r' || c = '\x0b' || c = '\x0c' ||
  c = '\u00A0' || c = '\u1680' || ('\u2000' ≤ c && c ≤ '\u200A') ||
  c = '\u2028' || c = '\u2029' || c = '\u202F' || c = '\u205F' ||
  c = '\u3000' || c = '\uFEFF'

/-- Line terminators, which the JavaScript `.` metacharacter does not match. -/
def isLineTerm (c : Char) : Bool :=
  c = '\n' || c = '\r' || c = '\u2028' || c = '\u2029'

/-- Canonicalisation used for case-insensitive (`i`-flag, non-`u`) regex
matching: ASCII letters are uppercased; the non-ASCII letters that occur in
the source patterns (`ü`, `ə`) and the remaining Azerbaijani letters whose
uppercase forms are non-ASCII are mapped to those uppercase forms; every
other character is left unchanged (per ECMAScript `Canonicalize`, a
non-ASCII character whose uppercase would be ASCII stays unchanged). -/
def canonChar (c : Char) : Char :=
  if c = 'ü' then 'Ü'
  else if c = 'ə' then 'Ə'
  else if c = 'ç' then 'Ç'
  else if c = 'ş' then 'Ş'
  else if c = 'ğ' then 'Ğ'
  else if c = 'ö' then 'Ö'
  else c.toUpper

/-- Case-insensitive character comparison for `i`-flagged regexes. -/
def ciEq (a b : Char) : Bool := canonChar a = canonChar b

/-- Case-sensitive character comparison (for regexes without the `i` flag). -/
def csEq (a b : Char) : Bool := a = b

/-- Match a literal pattern `pat` character-by-character under comparison
`eqf` against the front of `t`; return the consumed text (in original case)
and the remainder. -/
def litP (eqf : Char → Char → Bool) : Str → Str → Option (Str × Str)
  | [], t => some ([], t)
  | _ :: _, [] => none
  | p :: ps, c :: cs =>
    if eqf p c then (litP eqf ps cs).map (fun a => (c :: a.1, a.2)) else none

/-- Greedy span: the maximal front run satisfying `p`, and the rest. -/
def spanP (p : Char → Bool) (t : Str) : Str × Str :=
  (t.takeWhile p, t.dropWhile p)

theorem litP_append {eqf : Char → Char → Bool} :
    ∀ {pat t a r}, litP eqf pat t = some (a, r) → a ++ r = t := by
  intro pat
  induction pat with
  | nil => intro t a r h; simp [litP] at h; simp [h.1, h.2]
  | cons p ps ih =>
    intro t a r h
    cases t with
    | nil => simp [litP] at h
    | cons c cs =>
      simp only [litP] at h
      by_cases hc : eqf p c
      · simp only [hc, if_pos, Option.map_eq_some'] at h
        obtain ⟨⟨a', r'⟩, h1, h2⟩ := h
        have := ih h1
        cases h2
        simp_all
      · simp [hc] at h

theorem litP_eq {eqf : Char → Char → Bool} :
    ∀ {pat t a r}, litP eqf pat t = some (a, r) → a.length = pat.length := by
  intro pat
  induction pat with
  | nil => intro t a r h; simp [litP] at h; simp [h.1]
  | cons p ps ih =>
    intro t a r h
    cases t with
    | nil => simp [litP] at h
    | cons c cs =>
      simp only [litP] at h
      by_cases hc : eqf p c
      · simp only [hc, if_pos, Option.map_eq_some'] at h
        obtain ⟨⟨a', r'⟩, h1, h2⟩ := h
        have := ih h1
        cases h2
        simp_all
      · simp [hc] at h

theorem spanP_append (p : Char → Bool) (t : Str) :
    (spanP p t).1 ++ (spanP p t).2 = t := by
  simp [spanP, List.takeWhile_append_dropWhile]

theorem dropWhile_head_not (p : Char → Bool) :
    ∀ {t : Str} {c r}, t.dropWhile p = c :: r → p c = false := by
  intro t
  induction t with
  | nil => intro c r h; simp [List.dropWhile] at h
  | cons a as ih =>
    intro c r h
    simp only [List.dropWhile] at h
    by_cases ha : p a
    · exact ih (by simpa [ha] using h)
    · rw [Bool.not_eq_true] at ha
      simp [ha] at h
      simp [h.1] at ha ⊢
      exact ha

theorem length_dropWhile_le (p : Char → Bool) (t : Str) :
    (t.dropWhile p).length ≤ t.length := by
  induction t with
  | nil => simp [List.dropWhile]
  | cons a as ih =>
    simp only [List.dropWhile]
    by_cases ha : p a
    · simp only [ha]; exact Nat.le_succ_of_le ih
    · simp [ha]

/-- One regex match: the full matched substring (`match[0]`), the optional
text capture group, the URL capture group, and the remaining text after the
match (JavaScript `lastIndex` advances to the end of the match). -/
structure RawMatch where
  full : Str
  label : Option Str
  url : Str
  rest : Str
deriving DecidableEq, Repr

/-- Body of a URL capture after its scheme: the greedy nonempty character
class (`[^\)]+` resp. `[^\s\n]+`). -/
def urlBody (bodyOk : Char → Bool) (pre : Str) (r2 : Str) : Option (Str × Str) :=
  let b := r2.takeWhile bodyOk
  if b = [] then none else some (pre ++ b, r2.dropWhile bodyOk)

/-- The URL capture `https?:\/\/<bodyOk>+` of the source regexes, under
character comparison `eqf` (case-sensitive or `i`-flagged).  The greedy `s?`
is tried with `s` first, as a backtracking engine does. -/
def urlP (eqf : Char → Char → Bool) (bodyOk : Char → Bool) (t : Str) :
    Option (Str × Str) :=
  match litP eqf (strL "http") t with
  | none => none
  | some (h4, r1) =>
    match litP eqf (strL "s://") r1 with
    | some (s4, r2) => urlBody bodyOk (h4 ++ s4) r2
    | none =>
      match litP eqf (strL "://") r1 with
      | some (c3, r2) => urlBody bodyOk (h4 ++ c3) r2
      | none => none

/-- Matcher for the markdown pattern `\[([^\]]+)\]\((https?:\/\/[^\)]+)\)`
(no `i` flag) anchored at the front of the text. -/
def tryMarkdownAt : Str → Option RawMatch
  | [] => none
  | c :: t1 =>
    if c = '[' then
      let lab := t1.takeWhile (fun d => d != ']')
      let t2 := t1.dropWhile (fun d => d != ']')
      if lab = [] then none
      else
        match t2 with
        | b1 :: b2 :: t3 =>
          if b1 = ']' ∧ b2 = '(' then
            match urlP csEq (fun d => d != ')') t3 with
            | some (u, t4) =>
              match t4 with
              | d :: r =>
                if d = ')' then
                  some ⟨'[' :: (lab ++ ']' :: '(' :: (u ++ [')'])), some lab, u, r⟩
                else none
              | [] => none
            | none => none
          else none
        | _ => none
    else none

/-- The tail `:?[\s]*(https?:\/\/[^\s\n]+)` shared by the emoji / bold /
keyword patterns: greedy `:?` (with-colon alternative first), greedy `[\s]*`,
then the URL capture.  Returns (separator text, url capture, rest). -/
def colonWsUrl1 (rem : Str) : Option (Str × Str × Str) :=
  match rem with
  | c :: r2 =>
    if c = ':' then
      let w := r2.takeWhile isJsWs
      let r3 := r2.dropWhile isJsWs
      match urlP ciEq (fun d => !isJsWs d) r3 with
      | some (u, r4) => some (':' :: w, u, r4)
      | none => none
    else none
  | [] => none

/-- The alternative of `:?` with no colon consumed. -/
def colonWsUrl2 (rem : Str) : Option (Str × Str × Str) :=
  let w := rem.takeWhile isJsWs
  let r3 := rem.dropWhile isJsWs
  match urlP ciEq (fun d => !isJsWs d) r3 with
  | some (u, r4) => some (w, u, r4)
  | none => none

/-- Greedy `:?`: the with-colon alternative first, then without. -/
def colonWsUrl (rem : Str) : Option (Str × Str × Str) :=
  colonWsUrl1 rem <|> colonWsUrl2 rem

/-- The tail `[\s]*:?[\s]*(https?:\/\/[^\s\n]+)` of the bold and keyword
patterns. -/
def wsColonWsUrl (rem : Str) : Option (Str × Str × Str) :=
  let w1 := rem.takeWhile isJsWs
  let r1 := rem.dropWhile isJsWs
  match colonWsUrl r1 with
  | some (sep, u, r) => some (w1 ++ sep, u, r)
  | none => none

/-- One backtracking attempt of the emoji pattern with the greedy `[^:]*`
bound to exactly `k` characters of `t1`. -/
def tryEmojiSplit (t1 : Str) (k : Nat) : Option RawMatch :=
  match colonWsUrl (t1.drop k) with
  | some (sep, u, r) => some ⟨'📥' :: (t1.take k ++ sep ++ u), none, u, r⟩
  | none => none

/-- Greedy backtracking over the `[^:]*` of the emoji pattern: longest
split first. -/
def emojiLoop (t1 : Str) : Nat → Option RawMatch
  | 0 => tryEmojiSplit t1 0
  | k + 1 => tryEmojiSplit t1 (k + 1) <|> emojiLoop t1 k

/-- Matcher for the emoji pattern `📥[^:]*:?[\s]*(https?:\/\/[^\s\n]+)`
(flags `gi`) anchored at the front of the text. -/
def tryEmojiAt : Str → Option RawMatch
  | c :: t1 =>
    if c = '📥' then emojiLoop t1 (t1.takeWhile (fun d => d != ':')).length
    else none
  | [] => none

/-- Case-insensitive search for `pat`: remainder after the first
occurrence, if any. -/
def ciFindAfter (pat : Str) : Str → Option Str
  | [] => (litP ciEq pat []).map (fun a => a.2)
  | c :: cs =>
    match litP ciEq pat (c :: cs) with
    | some (_, r) => some r
    | none => ciFindAfter pat cs

/-- Does the star-free bold body contain `p1` and then, disjointly after it,
`p2` (case-insensitively)?  This is the reachability condition of
`[^*]*yükləmə[^*]*linki[^*]*` inside a star-free segment. -/
def ciHasInOrder (p1 p2 body : Str) : Bool :=
  match ciFindAfter p1 body with
  | some r => (ciFindAfter p2 r).isSome
  | none => false

/-- Matcher for the bold pattern
`\*\*[^*]*yükləmə[^*]*linki[^*]*\*\*[\s]*:?[\s]*(https?:\/\/[^\s\n]+)`
(flags `gi`) anchored at the front of the text.  Because `[^*]*` and the
literals `yükləmə`, `linki` cannot contain `*`, the bold body extends to the
first `*`, which must start the closing `**`. -/
def tryBoldAt : Str → Option RawMatch
  | a :: b :: t1 =>
    if a = '*' ∧ b = '*' then
      let body := t1.takeWhile (fun c => c != '*')
      let t2 := t1.dropWhile (fun c => c != '*')
      match t2 with
      | a2 :: b2 :: t3 =>
        if a2 = '*' ∧ b2 = '*' then
          if ciHasInOrder (strL "yükləmə") (strL "linki") body then
            match wsColonWsUrl t3 with
            | some (sep, u, r) =>
              some ⟨'*' :: '*' :: (body ++ '*' :: '*' :: (sep ++ u)), none, u, r⟩
            | none => none
          else none
        else none
      | _ => none
    else none
  | _ => none

/-- One alternative of the keyword pattern
`(yükləmə linki|download link|yüklə)[\s]*:?[\s]*(https?:\/\/[^\s\n]+)`. -/
def tryKeywordAlt (alt : Str) (t : Str) : Option RawMatch :=
  match litP ciEq alt t with
  | some (kw, r0) =>
    match wsColonWsUrl r0 with
    | some (sep, u, r) => some ⟨kw ++ (sep ++ u), some kw, u, r⟩
    | none => none
  | none => none

/-- Matcher for the keyword pattern (flags `gi`); ordered alternation with
backtracking into later alternatives. -/
def tryKeywordAt (t : Str) : Option RawMatch :=
  tryKeywordAlt (strL "yükləmə linki") t <|>
  tryKeywordAlt (strL "download link") t <|>
  tryKeywordAlt (strL "yüklə") t

/-- JavaScript `String.prototype.trim`, right half (structural form). -/
def trimRight : Str → Str
  | [] => []
  | c :: cs =>
    match trimRight cs with
    | [] => if isJsWs c then [] else [c]
    | d :: ds => c :: d :: ds

/-- JavaScript `String.prototype.trim`. -/
def trimStr (s : Str) : Str := trimRight (s.dropWhile isJsWs)

/-- Leftmost match of an anchored matcher `f`: try each start position from
the left, as `RegExp.exec` does from `lastIndex`. -/
def findMatch (f : Str → Option RawMatch) : Str → Option RawMatch
  | [] => none
  | c :: cs => f (c :: cs) <|> findMatch f cs

/-- Repeated `exec` on a `g`-flagged regex: collect matches left to right,
resuming after the end of each match.  Fuel-indexed for structural
termination; every source pattern only produces nonempty matches, so
`length t` fuel always suffices (proved below for the claim on
termination). -/
def scanFuel (f : Str → Option RawMatch) : Nat → Str → List RawMatch
  | 0, _ => []
  | fuel + 1, t =>
    match findMatch f t with
    | none => []
    | some m => m :: scanFuel f fuel m.rest

/-- All matches of one pattern over the whole text (the `while` loop of
`parseDownloadLinks`). -/
def scanAll (f : Str → Option RawMatch) (t : Str) : List RawMatch :=
  scanFuel f (t.length + 1) t

/-- The `type` tags of `DOWNLOAD_LINK_PATTERNS`. -/
inductive LinkType where
  | markdown
  | emoji_direct
  | bold_direct
  | keyword_direct
deriving DecidableEq, Repr

/-- One entry of `DOWNLOAD_LINK_PATTERNS`: its compiled matcher plus the
metadata used by `parseDownloadLinks`.  A pattern with a text capture group
(`textIndex` non-null) yields `RawMatch.label = some _`; one with
`textIndex: null` yields `RawMatch.label = none` and supplies
`defaultText`. -/
structure LinkPattern where
  tryAt : Str → Option RawMatch
  type : LinkType
  defaultText : Option Str
  priority : Nat

/-- The fixed pattern table `DOWNLOAD_LINK_PATTERNS` of
`templateDownloadUtils.js`.  The source sorts this array by ascending
`priority` before scanning; the array literal is already in ascending
priority order (1,2,3,4), so the sorted order is the listed order. -/
def DOWNLOAD_LINK_PATTERNS : List LinkPattern :=
  [ ⟨tryMarkdownAt, .markdown, none, 1⟩,
    ⟨tryEmojiAt, .emoji_direct, some (strL "Yüklə"), 2⟩,
    ⟨tryBoldAt, .bold_direct, some (strL "Yükləmə linki"), 3⟩,
    ⟨tryKeywordAt, .keyword_direct, none, 4⟩ ]

/-- A discovered download link, mirroring the object literal pushed by
`parseDownloadLinks`: `{text, url, type, fullMatch, priority}`. -/
structure DLink where
  text : Str
  url : Str
  type : LinkType
  fullMatch : Str
  priority : Nat
deriving DecidableEq, Repr

/-- The `text` field of a pushed link:
`pattern.textIndex !== null ? match[textIndex].trim() : (pattern.defaultText || 'Yüklə')`. -/
def mkText (p : LinkPattern) (m : RawMatch) : Str :=
  match m.label with
  | some c => trimStr c
  | none => p.defaultText.getD (strL "Yüklə")

/-- One iteration of the `while` loop body of `parseDownloadLinks`: state is
`(processedUrls, links)`.  The links are annotated (first component) with the
raw captured URL `match[pattern.urlIndex]` — the value the dedup set keys
on — purely as verification instrumentation; the link object itself stores
`url.trim()`. -/
def processMatch (p : LinkPattern) (st : List Str × List (Str × DLink))
    (m : RawMatch) : List Str × List (Str × DLink) :=
  if m.url ∈ st.1 then st
  else if m.url = [] ∨ (strL "http").isPrefixOf m.url = false then st
  else
    (m.url :: st.1,
     st.2 ++ [(m.url, ⟨mkText p m, trimStr m.url, p.type, m.full, p.priority⟩)])

/-- Scan one pattern over the text and fold its matches through the dedup
state. -/
def runPattern (t : Str) (st : List Str × List (Str × DLink))
    (p : LinkPattern) : List Str × List (Str × DLink) :=
  (scanAll p.tryAt t).foldl (processMatch p) st

/-- All links discovered by the pattern loop of `parseDownloadLinks`, in
discovery order, annotated with their raw captured URLs. -/
def discoverAnnotated (t : Str) : List (Str × DLink) :=
  (DOWNLOAD_LINK_PATTERNS.foldl (runPattern t) ([], [])).2

/-- Stable insertion step for the final
`links.sort((a, b) => a.priority - b.priority)` (JavaScript `sort` is
stable; an element is inserted before the first strictly-later element of
larger priority and after earlier elements of equal priority). -/
def insertLink (x : DLink) : List DLink → List DLink
  | [] => [x]
  | y :: ys => if x.priority ≤ y.priority then x :: y :: ys else y :: insertLink x ys

/-- Stable sort by ascending `priority`. -/
def sortByPriority (l : List DLink) : List DLink := l.foldr insertLink []

/-- `TemplateDownloadHandler.parseDownloadLinks` of
`templateDownloadUtils.js`. -/
def parseDownloadLinks (t : Str) : List DLink :=
  sortByPriority ((discoverAnnotated t).map Prod.snd)

/-- JavaScript `String.prototype.replace` with a *string* search value and
empty replacement: replaces the first occurrence only (never global). -/
def replaceFirstStr : Str → Str → Str
  | [], _ => []
  | c :: cs, pat =>
    if pat.isPrefixOf (c :: cs) then (c :: cs).drop pat.length
    else c :: replaceFirstStr cs pat

/-- Substring test (used by `contentDisposition.includes('filename=')`). -/
def occursIn (p : Str) : Str → Bool
  | [] => p.isPrefixOf []
  | c :: cs => p.isPrefixOf (c :: cs) || occursIn p cs

/-- The pass `.replace(/\n{3,}/g, '\n\n')`: every maximal run of three or
more newlines becomes exactly two; shorter runs are untouched.
Fuel-indexed (each step consumes at least one character, so `length` fuel
suffices). -/
def collapseNlF : Nat → Str → Str
  | 0, s => s
  | _ + 1, [] => []
  | f + 1, c :: cs =>
    if c = '\n' then
      if 2 ≤ (cs.takeWhile (fun d => d = '\n')).length then
        '\n' :: '\n' :: collapseNlF f (cs.dropWhile (fun d => d = '\n'))
      else c :: collapseNlF f cs
    else c :: collapseNlF f cs

/-- Entry point of the newline-collapsing pass. -/
def collapseNl3 (s : Str) : Str := collapseNlF s.length s

/-- Shared shape of the `X{2,} -> single character` replacement passes: a
maximal run (length ≥ 2) of characters in class `cls` becomes the single
character `repl`; runs of length 1 are untouched.  Fuel-indexed (each step
consumes at least one character, so `length` fuel suffices). -/
def collapseRunsF (cls : Char → Bool) (repl : Char) : Nat → Str → Str
  | 0, s => s
  | _ + 1, [] => []
  | f + 1, c :: cs =>
    if cls c then
      if (cs.takeWhile cls) = [] then c :: collapseRunsF cls repl f cs
      else repl :: collapseRunsF cls repl f (cs.dropWhile cls)
    else c :: collapseRunsF cls repl f cs

/-- The pass `.replace(/\s{2,}/g, ' ')`: every maximal run of two or more
whitespace characters (of any kind, newlines included) becomes a single
space; single whitespace characters are untouched. -/
def collapseWs2 (s : Str) : Str := collapseRunsF isJsWs ' ' s.length s

/-- `MessageContentProcessor.removeDownloadLinks` of
`templateDownloadUtils.js`: remove each link's `fullMatch` (first occurrence
only), then collapse 3+ newlines to two, collapse 2+ whitespace to one
space, and trim. -/
def removeDownloadLinks (content : Str) (links : List DLink) : Str :=
  let stripped := links.foldl
    (fun acc l => if l.fullMatch = [] then acc else replaceFirstStr acc l.fullMatch)
    content
  trimStr (collapseWs2 (collapseNl3 stripped))

/-- JavaScript `toLowerCase` restricted to the character repertoire relevant
to `generateFilename`: ASCII letters plus the uppercase Azerbaijani letters.
(`İ` really lowercases to `i` followed by a combining dot U+0307 in
JavaScript; the combining dot is removed by the character filter that always
follows this map in the source, so mapping `İ` directly to `i` produces the
same composite result.) -/
def jsToLower (c : Char) : Char :=
  if c = 'Ə' then 'ə'
  else if c = 'Ü' then 'ü'
  else if c = 'Ç' then 'ç'
  else if c = 'Ş' then 'ş'
  else if c = 'Ğ' then 'ğ'
  else if c = 'Ö' then 'ö'
  else if c = 'İ' then 'i'
  else c.toLower

/-- The Azerbaijani letters admitted by `generateFilename`'s character
class. -/
def isAzChar (c : Char) : Bool :=
  c = 'ə' || c = 'ı' || c = 'ö' || c = 'ü' || c = 'ç' || c = 'ş' || c = 'ğ'

/-- Characters kept by the class `[a-z0-9əıöüçşğ]` (the filter keeps these
or whitespace). -/
def isAllowedChar (c : Char) : Bool :=
  ('a' ≤ c && c ≤ 'z') || ('0' ≤ c && c ≤ '9') || isAzChar c

/-- The pass `.replace(/\s+/g, '_')`: every maximal whitespace run (length
≥ 1) becomes a single underscore. -/
def wsToUnderscoreF : Nat → Str → Str
  | 0, s => s
  | _ + 1, [] => []
  | f + 1, c :: cs =>
    if isJsWs c then '_' :: wsToUnderscoreF f (cs.dropWhile isJsWs)
    else c :: wsToUnderscoreF f cs

/-- Entry point of the whitespace-to-underscore pass. -/
def wsToUnderscore (s : Str) : Str := wsToUnderscoreF s.length s

/-- The pass `.replace(/_{2,}/g, '_')`: maximal underscore runs of length
≥ 2 become a single underscore. -/
def collapseUnderscore (s : Str) : Str :=
  collapseRunsF (fun d => d = '_') '_' s.length s

/-- The pass `.replace(/^_|_$/g, '')`: one leading underscore (if any) and
one trailing underscore (if any) are removed. -/
def stripEdgeUnderscore (s : Str) : Str :=
  let s1 := match s with
    | c :: r => if c = '_' then r else c :: r
    | [] => []
  if s1.getLast? = some '_' then s1.dropLast else s1

/-- `TemplateDownloadHandler.generateFilename` of
`templateDownloadUtils.js`. -/
def generateFilename (templateName : Str) (extension : Str) : Str :=
  let cleanName :=
    stripEdgeUnderscore (collapseUnderscore (wsToUnderscore
      ((templateName.map jsToLower).filter (fun c => isAllowedChar c || isJsWs c))))
  (if cleanName = [] then strL "template" else cleanName) ++ '.' :: extension

/-- Lazy `.*?\2` closing of a quoted Content-Disposition value: the shortest
run of non-line-terminator characters up to the next occurrence of the
opening quote `q`. -/
def lazyClose (q : Char) : Str → Option Str
  | [] => none
  | c :: cs =>
    if c = q then some []
    else if isLineTerm c then none
    else (lazyClose q cs).map (fun inner => c :: inner)

/-- Anchored attempt of the header regex
`filename[^;=\n]*=((['"]).*?\2|[^;\n]*)` (case-sensitive, first match):
returns capture group 1 if the regex matches starting exactly here. -/
def cdAt (t : Str) : Option Str :=
  if (strL "filename").isPrefixOf t then
    let r := t.drop 8
    match r.dropWhile (fun c => !(c = ';' || c = '=' || c = '\n')) with
    | '=' :: r3 =>
      match r3 with
      | q :: r4 =>
        if q = dquote || q = squote then
          match lazyClose q r4 with
          | some inner => some (q :: (inner ++ [q]))
          | none => some (r3.takeWhile (fun c => !(c = ';' || c = '\n')))
        else some (r3.takeWhile (fun c => !(c = ';' || c = '\n')))
      | [] => some []
    | _ => none
  else none

/-- Leftmost match of the header regex over the whole header value. -/
def cdSearch : Str → Option Str
  | [] => none
  | c :: cs =>
    match cdAt (c :: cs) with
    | some g => some g
    | none => cdSearch cs

/-- The source's `match[1].replace(/['"]/g, '')`: remove every single and
double quote character (not merely surrounding ones). -/
def removeQuotes (s : Str) : Str :=
  s.filter (fun c => !(c = dquote || c = squote))

/-- Refinement comparison definition, following the spec's words "using the
`filename=` token (strip surrounding quotes)": remove one matching pair of
surrounding quotes and nothing else. -/
def stripSurroundingQuotes (s : Str) : Str :=
  match s with
  | q :: rest =>
    if (q = dquote || q = squote) && rest.getLast? = some q then rest.dropLast
    else q :: rest
  | [] => []

/-- Last path segment: `pathname.split('/').pop()`. -/
def lastSegment (path : Str) : Str :=
  (path.reverse.takeWhile (fun c => c != '/')).reverse

/-- `filename.includes('.') ? filename : filename + '.docx'` — the final
extension guard of `downloadFromUrl`. -/
def ensureDocx (f : Str) : Str :=
  if '.' ∈ f then f else f ++ strL ".docx"

/-- `new URL(url).pathname`, modelled for plain `http(s)://host/path`
URLs: the path runs from the first `/` after the authority up to a query or
fragment; a URL without a path has pathname `/`.  A string not of that
shape makes `new URL` throw, modelled as `none`.  (Percent-encoding and
dot-segment normalisation of the full WHATWG parser are not modelled; the
claims only exercise plain URLs.) -/
def urlPathname (u : Str) : Option Str :=
  let afterScheme : Option Str :=
    if (strL "https://").isPrefixOf u then some (u.drop 8)
    else if (strL "http://").isPrefixOf u then some (u.drop 7)
    else none
  match afterScheme with
  | some r =>
    let host := r.takeWhile (fun c => !(c = '/' || c = '?' || c = '#'))
    if host = [] then none
    else
      match r.drop host.length with
      | '/' :: rest => some ('/' :: rest.takeWhile (fun c => !(c = '?' || c = '#')))
      | _ => some ['/']
  | none => none

/-- Filename resolution of `TemplateDownloadHandler.downloadFromUrl`,
parameterised by the quote-stripping function applied to the
Content-Disposition capture (the source uses `removeQuotes`; the spec's
words correspond to `stripSurroundingQuotes`): explicit argument if truthy,
else Content-Disposition, else last URL path segment or `'download'`; then
the `.docx` guard.  `none` models the `new URL` throw. -/
def resolveFilenameWith (strip : Str → Str) (suggested : Option Str)
    (cd : Option Str) (url : Str) : Option Str :=
  let f0 : Option Str :=
    match suggested with
    | some s => if s = [] then none else some s
    | none => none
  let f1 : Option Str :=
    match f0 with
    | some s => some s
    | none =>
      match cd with
      | some h =>
        match cdSearch h with
        | some g =>
          if g = [] then none
          else
            let f := strip g
            if f = [] then none else some f
        | none => none
      | none => none
  let f2 : Option Str :=
    match f1 with
    | some s => some s
    | none =>
      match urlPathname url with
      | some p =>
        let seg := lastSegment p
        some (if seg = [] then strL "download" else seg)
      | none => none
  f2.map ensureDocx

/-- The filename resolution actually performed by the source. -/
def resolveFilename (suggested : Option Str) (cd : Option Str) (url : Str) :
    Option Str :=
  resolveFilenameWith removeQuotes suggested cd url

/-- Filename resolution as the spec words it (surrounding quotes only). -/
def resolveFilenameSpec (suggested : Option Str) (cd : Option Str) (url : Str) :
    Option Str :=
  resolveFilenameWith stripSurroundingQuotes suggested cd url

/-- An HTTP response as observed by the download handlers after `fetch`
resolves: status, status text, the size of the body read via
`response.blob()`, and the optional `Content-Disposition` header. -/
structure HttpResponse where
  status : Nat
  statusText : Str
  blobSize : Nat
  contentDisposition : Option Str
deriving DecidableEq, Repr

/-- `Response.ok` of the Fetch standard: status in the inclusive range
200–299. -/
def HttpResponse.ok (r : HttpResponse) : Bool :=
  decide (200 ≤ r.status) && decide (r.status ≤ 299)

/-- Tagged download failures (the source throws `Error` objects whose
messages carry these data; the wrap-and-rethrow in the `catch` preserves
them). -/
inductive DownloadError where
  | httpError (status : Nat) (statusText : Str)
  | emptyBodyError
  | badUrlError
deriving DecidableEq, Repr

/-- A triggered save: the anchor-element download with the resolved filename
and the blob that was handed over. -/
structure SaveAction where
  filename : Str
  byteSize : Nat
deriving DecidableEq, Repr

/-- `TemplateDownloadHandler.downloadFromUrl` of `templateDownloadUtils.js`,
modelled from the point where `fetch` has resolved to `resp` (transport
failures happen before this point and are outside the embedding).  Note the
source performs no check on the blob size: a success status always leads to
the save being triggered. -/
def downloadFromUrl (url : Str) (filename : Option Str) (resp : HttpResponse) :
    Except DownloadError SaveAction :=
  if resp.ok then
    match resolveFilename filename resp.contentDisposition url with
    | some f => .ok ⟨f, resp.blobSize⟩
    | none => .error .badUrlError
  else .error (.httpError resp.status resp.statusText)

/-- `handleDownloadFromLink` of `SmartDashboard.jsx` (the body of its `try`
block; the surrounding `catch` converts the error into a toast).  Unlike
`downloadFromUrl` it rejects a zero-size blob (`'Boş fayl alındı'`) before
any save, only consults the Content-Disposition header for the filename
(guarded by an `includes('filename=')` test), and appends no extension. -/
def handleDownloadFromLink (url : Str) (filename : Str) (resp : HttpResponse) :
    Except DownloadError SaveAction :=
  if resp.ok then
    if resp.blobSize = 0 then .error .emptyBodyError
    else
      let f :=
        match resp.contentDisposition with
        | some h =>
          if occursIn (strL "filename=") h then
            match cdSearch h with
            | some g => if g = [] then filename else removeQuotes g
            | none => filename
          else filename
        | none => filename
      .ok ⟨f, resp.blobSize⟩
  else .error (.httpError resp.status resp.statusText)

/-- No two adjacent characters of the class `cls`. -/
def noAdjacent (cls : Char → Bool) (s : Str) : Prop :=
  s.Chain' (fun a b => ¬(cls a = true ∧ cls b = true))

theorem takeWhile_nil_head (cls : Char → Bool) :
    ∀ {l : Str}, l.takeWhile cls = [] → ∀ x ∈ l.head?, cls x = false := by
  intro l h x hx
  cases l with
  | nil => simp at hx
  | cons d ds =>
    have hxd : d = x := by simpa using hx
    by_cases hd : cls d
    · rw [List.takeWhile_cons, hd] at h; simp at h
    · rw [← hxd]; simpa using hd

theorem collapseRunsF_head_not (cls : Char → Bool) (repl : Char) (f : Nat)
    (s : Str) (h : ∀ x ∈ s.head?, cls x = false) :
    ∀ y ∈ (collapseRunsF cls repl f s).head?, cls y = false := by
  cases f with
  | zero => simpa [collapseRunsF] using h
  | succ f =>
    cases s with
    | nil => simp [collapseRunsF]
    | cons c cs =>
      have hc : cls c = false := h c (by simp)
      simp [collapseRunsF, hc]

theorem collapseRunsF_chain (cls : Char → Bool) (repl : Char) :
    ∀ (f : Nat) (s : Str), s.length ≤ f →
      noAdjacent cls (collapseRunsF cls repl f s) := by
  intro f
  induction f with
  | zero =>
    intro s hs
    have : s = [] := List.length_eq_zero.mp (Nat.le_zero.mp hs)
    subst this
    simp [collapseRunsF, noAdjacent]
  | succ f ih =>
    intro s hs
    cases s with
    | nil => simp [collapseRunsF, noAdjacent]
    | cons c cs =>
      have hlen : cs.length ≤ f := Nat.le_of_succ_le_succ (by simpa using hs)
      by_cases hc : cls c
      · by_cases hrun : cs.takeWhile cls = []
        · have hout : collapseRunsF cls repl (f + 1) (c :: cs)
              = c :: collapseRunsF cls repl f cs := by
            simp [collapseRunsF, hc, hrun]
          rw [hout, noAdjacent, List.chain'_cons']
          refine ⟨?_, ih cs hlen⟩
          intro y hy
          have : cls y = false :=
            collapseRunsF_head_not cls repl f cs (takeWhile_nil_head cls hrun) y hy
          simp [this]
        · have hout : collapseRunsF cls repl (f + 1) (c :: cs)
              = repl :: collapseRunsF cls repl f (cs.dropWhile cls) := by
            simp [collapseRunsF, hc, hrun]
          rw [hout, noAdjacent, List.chain'_cons']
          have hdlen : (cs.dropWhile cls).length ≤ f :=
            Nat.le_trans (length_dropWhile_le cls cs) hlen
          refine ⟨?_, ih _ hdlen⟩
          intro y hy
          have hhead : ∀ x ∈ (cs.dropWhile cls).head?, cls x = false := by
            intro x hx
            cases hd : cs.dropWhile cls with
            | nil => simp [hd] at hx
            | cons a as =>
              rw [hd] at hx
              simp at hx
              subst hx
              exact dropWhile_head_not cls hd
          have : cls y = false :=
            collapseRunsF_head_not cls repl f _ hhead y hy
          simp [this]
      · have hout : collapseRunsF cls repl (f + 1) (c :: cs)
            = c :: collapseRunsF cls repl f cs := by
          simp [collapseRunsF, hc]
        rw [hout, noAdjacent, List.chain'_cons']
        refine ⟨?_, ih cs hlen⟩
        intro y _
        simp [hc]

theorem chain'_dropWhile {R : Char → Char → Prop} (p : Char → Bool) :
    ∀ {l : Str}, l.Chain' R → (l.dropWhile p).Chain' R := by
  intro l h
  induction l with
  | nil => simpa using h
  | cons a as ih =>
    rw [List.dropWhile]
    by_cases hp : p a
    · simp only [hp]
      exact ih h.tail
    · simpa [hp] using h

theorem trimRight_head :
    ∀ {l : Str} {d : Char} {ds : Str}, trimRight l = d :: ds → ∃ tl, l = d :: tl := by
  intro l
  cases l with
  | nil => intro d ds h; simp [trimRight] at h
  | cons c cs =>
    intro d ds h
    rw [trimRight] at h
    cases htr : trimRight cs with
    | nil =>
      rw [htr] at h
      by_cases hw : isJsWs c
      · simp [hw] at h
      · simp [hw] at h
        exact ⟨cs, by simp [h.1]⟩
    | cons x xs =>
      rw [htr] at h
      cases h
      exact ⟨cs, rfl⟩

theorem chain'_trimRight {R : Char → Char → Prop} :
    ∀ {l : Str}, l.Chain' R → (trimRight l).Chain' R := by
  intro l h
  induction l with
  | nil => simpa [trimRight] using h
  | cons c cs ih =>
    rw [trimRight]
    cases htr : trimRight cs with
    | nil =>
      by_cases hw : isJsWs c <;> simp [hw, List.chain'_singleton]
    | cons d ds =>
      have hcs : ∃ tl, cs = d :: tl := trimRight_head htr
      obtain ⟨tl, htl⟩ := hcs
      have hRcd : R c d := by
        rw [htl] at h
        exact (List.chain'_cons.mp h).1
      have : (trimRight cs).Chain' R := ih h.tail
      rw [htr] at this
      exact List.chain'_cons.mpr ⟨hRcd, this⟩

theorem chain'_trimStr {R : Char → Char → Prop} {l : Str} (h : l.Chain' R) :
    (trimStr l).Chain' R :=
  chain'_trimRight (chain'_dropWhile isJsWs h)

theorem isPrefixOf_append_self : ∀ (p b : Str), p.isPrefixOf (p ++ b) = true := by
  intro p b
  induction p with
  | nil => simp [List.isPrefixOf]
  | cons c cs ih => simp [List.isPrefixOf, ih]

theorem replaceFirst_at :
    ∀ (a pat b : Str), pat ≠ [] →
      (∀ i, i < a.length → pat.isPrefixOf ((a ++ (pat ++ b)).drop i) = false) →
      replaceFirstStr (a ++ (pat ++ b)) pat = a ++ b := by
  intro a
  induction a with
  | nil =>
    intro pat b hne _
    cases pat with
    | nil => exact absurd rfl hne
    | cons p ps =>
      have hpre : (p :: ps).isPrefixOf ((p :: ps) ++ b) = true :=
        isPrefixOf_append_self (p :: ps) b
      simp only [List.nil_append]
      rw [List.cons_append, replaceFirstStr, ← List.cons_append, if_pos hpre]
      exact List.drop_left (p :: ps) b
  | cons x a' ih =>
    intro pat b hne hfirst
    have h0 : pat.isPrefixOf (x :: (a' ++ (pat ++ b))) = false := by
      have := hfirst 0 (by simp)
      simpa using this
    rw [List.cons_append, replaceFirstStr, if_neg (by simp [h0])]
    have hshift : ∀ i, i < a'.length →
        pat.isPrefixOf ((a' ++ (pat ++ b)).drop i) = false := by
      intro i hi
      have := hfirst (i + 1) (by simpa using Nat.succ_lt_succ hi)
      simpa [List.drop_succ_cons] using this
    rw [ih pat b hne hshift]
    simp

theorem occursIn_false_of_noAdjacent (cls : Char → Bool) (a b : Char) (p : Str)
    (ha : cls a = true) (hb : cls b = true) :
    ∀ {s : Str}, noAdjacent cls s → occursIn (a :: b :: p) s = false := by
  intro s
  induction s with
  | nil => intro _; simp [occursIn, List.isPrefixOf]
  | cons c cs ih =>
    intro h
    rw [occursIn]
    have h1 : (a :: b :: p).isPrefixOf (c :: cs) = false := by
      cases cs with
      | nil => simp [List.isPrefixOf]
      | cons d ds =>
        by_cases hac : a = c
        · by_cases hbd : b = d
          · exfalso
            have hcd := (List.chain'_cons.mp h).1
            exact hcd ⟨by rw [← hac]; exact ha, by rw [← hbd]; exact hb⟩
          · simp [List.isPrefixOf, hbd]
        · simp [List.isPrefixOf, hac]
    rw [h1]
    simpa using ih h.tail

/-- C10: for every text and link list, the string returned by
`removeDownloadLinks` contains no two consecutive whitespace characters of
any kind — the final whitespace-collapsing pass also matches newline pairs,
so no blank line (double newline) survives, and paragraph separation is
reduced to a single space (`"a\n\nb"` becomes `"a b"`). -/
theorem claim_C10 :
    (∀ (content : Str) (links : List DLink),
      noAdjacent isJsWs (removeDownloadLinks content links)) ∧
    removeDownloadLinks (strL "a\n\nb") [] = strL "a b" := by
  constructor
  · intro content links
    unfold removeDownloadLinks
    exact chain'_trimStr (collapseRunsF_chain isJsWs ' ' _ _ (Nat.le_refl _))
  · decide

/-- C4 (amended): `removeDownloadLinks` removes each returned link's exact
`fullMatch` text at its first occurrence only — a later occurrence of the
same substring is preserved (the removal is never a global replace) — and
the final string contains no run of three or more newlines (indeed no run of
two or more whitespace characters: a surviving double newline is reduced to
a single space, not kept as two newlines).  The original claim's guarantee
that no url string from the returned links' fullMatchText remains in the
output is false: URL-level dedup can return fewer links than there are
occurrences of the URL in the text (see the counterexample). -/
theorem claim_C4 :
    (∀ (a pat b : Str), pat ≠ [] →
      (∀ i, i < a.length → pat.isPrefixOf ((a ++ (pat ++ b)).drop i) = false) →
      replaceFirstStr (a ++ (pat ++ b)) pat = a ++ b) ∧
    (∀ (content : Str) (links : List DLink),
      occursIn (strL "\n\n\n") (removeDownloadLinks content links) = false) := by
  constructor
  · exact replaceFirst_at
  · intro content links
    have h : noAdjacent isJsWs (removeDownloadLinks content links) := by
      unfold removeDownloadLinks
      exact chain'_trimStr (collapseRunsF_chain isJsWs ' ' _ _ (Nat.le_refl _))
    exact occursIn_false_of_noAdjacent isJsWs '\n' '\n' ['\n'] (by decide) (by decide) h

/-- Witness for C4: a concrete first-occurrence-only replacement, obtained
by applying the theorem; the second occurrence of `"ab"` survives. -/
theorem claim_C4_witness :
    replaceFirstStr (strL "x ab ab") (strL "ab") = strL "x " ++ strL " ab" := by
  have h := claim_C4.1 (strL "x ") (strL "ab") (strL " ab") (by decide) (by decide)
  simpa using h

/-- Counterexample to C4 as stated: in
`"[Click](http://a.b) 📥: http://a.b"` the single returned link's
`fullMatch` is removed, but the second (deduplicated-away) occurrence of the
url `http://a.b` survives into the sanitised output. -/
theorem claim_C4_cex :
    parseDownloadLinks (strL "[Click](http://a.b) 📥: http://a.b") =
      [⟨strL "Click", strL "http://a.b", .markdown, strL "[Click](http://a.b)", 1⟩] ∧
    removeDownloadLinks (strL "[Click](http://a.b) 📥: http://a.b")
        (parseDownloadLinks (strL "[Click](http://a.b) 📥: http://a.b"))
      = strL "📥: http://a.b" ∧
    occursIn (strL "http://a.b")
      (removeDownloadLinks (strL "[Click](http://a.b) 📥: http://a.b")
        (parseDownloadLinks (strL "[Click](http://a.b) 📥: http://a.b"))) = true := by
  refine ⟨by decide, by decide, by decide⟩

theorem noAdjacent_of_all_not (cls : Char → Bool) :
    ∀ (s : Str), (∀ c ∈ s, cls c = false) → noAdjacent cls s := by
  intro s
  induction s with
  | nil => intro _; simp [noAdjacent]
  | cons a as ih =>
    intro h
    rw [noAdjacent, List.chain'_cons']
    refine ⟨?_, ih (fun c hc => h c (List.mem_cons_of_mem a hc))⟩
    intro y _
    simp [h a (by simp)]

theorem wsToUnderscoreF_mem :
    ∀ (f : Nat) (s : Str), s.length ≤ f →
      ∀ c ∈ wsToUnderscoreF f s, (c ∈ s ∧ isJsWs c = false) ∨ c = '_' := by
  intro f
  induction f with
  | zero =>
    intro s hs
    have : s = [] := List.length_eq_zero.mp (Nat.le_zero.mp hs)
    subst this
    simp [wsToUnderscoreF]
  | succ f ih =>
    intro s hs
    cases s with
    | nil => simp [wsToUnderscoreF]
    | cons a as =>
      have hlen : as.length ≤ f := Nat.le_of_succ_le_succ (by simpa using hs)
      by_cases ha : isJsWs a
      · rw [wsToUnderscoreF, if_pos ha]
        intro c hc
        rcases List.mem_cons.mp hc with hc | hc
        · right; exact hc
        · have hdlen : (as.dropWhile isJsWs).length ≤ f :=
            Nat.le_trans (length_dropWhile_le isJsWs as) hlen
          rcases ih _ hdlen c hc with ⟨hm, hw⟩ | h'
          · exact Or.inl ⟨List.mem_cons_of_mem a ((List.dropWhile_sublist isJsWs).mem hm), hw⟩
          · exact Or.inr h'
      · rw [wsToUnderscoreF, if_neg ha]
        intro c hc
        rcases List.mem_cons.mp hc with hc | hc
        · subst hc; exact Or.inl ⟨by simp, by simpa using ha⟩
        · rcases ih _ hlen c hc with ⟨hm, hw⟩ | h'
          · exact Or.inl ⟨List.mem_cons_of_mem a hm, hw⟩
          · exact Or.inr h'

theorem collapseRunsF_mem (cls : Char → Bool) (repl : Char) :
    ∀ (f : Nat) (s : Str), s.length ≤ f →
      ∀ c ∈ collapseRunsF cls repl f s, c ∈ s ∨ c = repl := by
  intro f
  induction f with
  | zero =>
    intro s hs
    have : s = [] := List.length_eq_zero.mp (Nat.le_zero.mp hs)
    subst this
    simp [collapseRunsF]
  | succ f ih =>
    intro s hs
    cases s with
    | nil => simp [collapseRunsF]
    | cons a as =>
      have hlen : as.length ≤ f := Nat.le_of_succ_le_succ (by simpa using hs)
      intro c hc
      by_cases ha : cls a
      · by_cases hrun : as.takeWhile cls = []
        · rw [collapseRunsF, if_pos ha, if_pos hrun] at hc
          rcases List.mem_cons.mp hc with hc | hc
          · exact Or.inl (hc ▸ List.mem_cons_self a as)
          · rcases ih _ hlen c hc with h' | h'
            · exact Or.inl (List.mem_cons_of_mem a h')
            · exact Or.inr h'
        · rw [collapseRunsF, if_pos ha, if_neg hrun] at hc
          rcases List.mem_cons.mp hc with hc | hc
          · exact Or.inr hc
          · have hdlen : (as.dropWhile cls).length ≤ f :=
              Nat.le_trans (length_dropWhile_le cls as) hlen
            rcases ih _ hdlen c hc with h' | h'
            · exact Or.inl (List.mem_cons_of_mem a ((List.dropWhile_sublist cls).mem h'))
            · exact Or.inr h'
      · rw [collapseRunsF, if_neg ha] at hc
        rcases List.mem_cons.mp hc with hc | hc
        · exact Or.inl (hc ▸ List.mem_cons_self a as)
        · rcases ih _ hlen c hc with h' | h'
          · exact Or.inl (List.mem_cons_of_mem a h')
          · exact Or.inr h'

theorem stripEdgeUnderscore_subset :
    ∀ (s : Str), ∀ c ∈ stripEdgeUnderscore s, c ∈ s := by
  intro s c hc
  unfold stripEdgeUnderscore at hc
  have hsub1 : ∀ (s1 : Str), c ∈ (if s1.getLast? = some '_' then s1.dropLast else s1) → c ∈ s1 := by
    intro s1 h
    by_cases hg : s1.getLast? = some '_'
    · rw [if_pos hg, List.dropLast_eq_take] at h
      exact List.take_subset _ _ h
    · rwa [if_neg hg] at h
  cases s with
  | nil => simpa using hc
  | cons a r =>
    by_cases ha : a = '_'
    · simp only [ha, if_pos rfl] at hc
      exact List.mem_cons_of_mem _ (hsub1 r hc)
    · simp only [ha, if_neg, ite_false] at hc
      exact hsub1 (a :: r) hc

theorem chain'_dropLast {R : Char → Char → Prop} :
    ∀ {l : Str}, l.Chain' R → l.dropLast.Chain' R := by
  intro l h
  induction l with
  | nil => simpa using h
  | cons a as ih =>
    cases as with
    | nil => simp
    | cons b t =>
      rw [List.dropLast_cons₂]
      rw [List.chain'_cons'] at h ⊢
      refine ⟨?_, ih h.2⟩
      intro y hy
      cases t with
      | nil => simp at hy
      | cons x xs =>
        have hby : b = y := by
          rw [List.dropLast_cons₂] at hy
          simpa using hy
        exact hby ▸ h.1 b (by simp)

theorem chain'_getLast_dropLast {R : Char → Char → Prop} :
    ∀ {l : Str} {y z : Char}, l.Chain' R → l.getLast? = some z →
      l.dropLast.getLast? = some y → R y z := by
  intro l
  induction l with
  | nil => intro y z _ hz _; simp at hz
  | cons a as ih =>
    intro y z h hz hy
    cases as with
    | nil =>
      simp at hy
    | cons b t =>
      rw [List.getLast?_cons_cons] at hz
      rw [List.dropLast_cons₂] at hy
      cases t with
      | nil =>
        simp at hy hz
        subst hy
        subst hz
        exact (List.chain'_cons.mp h).1
      | cons x xs =>
        rw [List.dropLast_cons₂, List.getLast?_cons_cons, ← List.dropLast_cons₂] at hy
        exact ih h.tail hz hy

theorem head_dropLast_cases :
    ∀ (l : Str), l.dropLast.head? = none ∨ l.dropLast.head? = l.head? := by
  intro l
  cases l with
  | nil => left; simp
  | cons a as =>
    cases as with
    | nil => left; simp
    | cons b t => right; rw [List.dropLast_cons₂]; simp

theorem chain'_stripEdgeUnderscore {R : Char → Char → Prop} :
    ∀ (s : Str), s.Chain' R → (stripEdgeUnderscore s).Chain' R := by
  have step : ∀ (s1 : Str), s1.Chain' R →
      (if s1.getLast? = some '_' then s1.dropLast else s1).Chain' R := by
    intro s1 h1
    by_cases hg : s1.getLast? = some '_'
    · rw [if_pos hg]; exact chain'_dropLast h1
    · rwa [if_neg hg]
  intro s h
  cases s with
  | nil => simpa [stripEdgeUnderscore] using step [] (by simp)
  | cons a r =>
    by_cases ha : a = '_'
    · simpa [stripEdgeUnderscore, ha] using step r h.tail
    · simpa [stripEdgeUnderscore, ha] using step (a :: r) h

theorem head_stripEdge_ne :
    ∀ (s : Str), noAdjacent (fun d => d = '_') s →
      (stripEdgeUnderscore s).head? ≠ some '_' := by
  have step : ∀ (s1 : Str), s1.head? ≠ some '_' →
      (if s1.getLast? = some '_' then s1.dropLast else s1).head? ≠ some '_' := by
    intro s1 h1
    by_cases hg : s1.getLast? = some '_'
    · rw [if_pos hg]
      rcases head_dropLast_cases s1 with h | h
      · simp [h]
      · rw [h]; exact h1
    · rwa [if_neg hg]
  intro s h
  cases s with
  | nil => simpa [stripEdgeUnderscore] using step [] (by simp)
  | cons a r =>
    by_cases ha : a = '_'
    · have hr : r.head? ≠ some '_' := by
        cases r with
        | nil => simp
        | cons b t =>
          have hR := (List.chain'_cons.mp h).1
          simp only [List.head?_cons, ne_eq, Option.some.injEq]
          intro hb
          exact hR ⟨by simpa using ha, by simpa using hb⟩
      simpa [stripEdgeUnderscore, ha] using step r hr
    · have hs : (a :: r).head? ≠ some '_' := by simpa using ha
      simpa [stripEdgeUnderscore, ha] using step (a :: r) hs

theorem getLast_stripEdge_ne :
    ∀ (s : Str), noAdjacent (fun d => d = '_') s →
      (stripEdgeUnderscore s).getLast? ≠ some '_' := by
  have step : ∀ (s1 : Str), noAdjacent (fun d => d = '_') s1 →
      (if s1.getLast? = some '_' then s1.dropLast else s1).getLast? ≠ some '_' := by
    intro s1 h1
    by_cases hg : s1.getLast? = some '_'
    · rw [if_pos hg]
      intro hy
      exact chain'_getLast_dropLast h1 hg hy ⟨by simp, by simp⟩
    · rwa [if_neg hg]
  intro s h
  cases s with
  | nil => simpa [stripEdgeUnderscore] using step [] (by simp)
  | cons a r =>
    by_cases ha : a = '_'
    · simpa [stripEdgeUnderscore, ha] using step r h.tail
    · simpa [stripEdgeUnderscore, ha] using step (a :: r) h

/-- C6: for every label and extension, `generateFilename` returns a
non-empty string of the form `base ++ "." ++ extension`, where `base` is
non-empty, contains only the permitted characters (ASCII lowercase
letters/digits, the Azerbaijani letters, and underscores), never has two
consecutive underscores, and has no leading or trailing underscore; when
normalisation strips the label to nothing the fallback `template` is used —
in particular `generateFilename "!!!" "docx" = "template.docx"` and
`generateFilename "Mezuniyyet Ərizesi" "docx" = "mezuniyyet_ərizesi.docx"`. -/
theorem claim_C6 :
    (∀ (name ext : Str), ∃ base : Str,
      generateFilename name ext = base ++ '.' :: ext ∧
      base ≠ [] ∧
      (∀ c ∈ base, isAllowedChar c = true ∨ c = '_') ∧
      noAdjacent (fun d => d = '_') base ∧
      base.head? ≠ some '_' ∧
      base.getLast? ≠ some '_') ∧
    generateFilename (strL "!!!") (strL "docx") = strL "template.docx" ∧
    generateFilename (strL "Mezuniyyet Ərizesi") (strL "docx")
      = strL "mezuniyyet_ərizesi.docx" := by
  refine ⟨?_, by decide, by decide⟩
  intro name ext
  classical
  set filtered := (name.map jsToLower).filter (fun c => isAllowedChar c || isJsWs c) with hfilt
  set wsu := wsToUnderscore filtered with hwsu
  set coll := collapseUnderscore wsu with hcoll
  set clean := stripEdgeUnderscore coll with hclean
  have hgen : generateFilename name ext
      = (if clean = [] then strL "template" else clean) ++ '.' :: ext := rfl
  refine ⟨if clean = [] then strL "template" else clean, hgen, ?_, ?_, ?_, ?_, ?_⟩
  case _ =>
    by_cases hc : clean = [] <;> simp [hc]
    decide
  case _ =>
    by_cases hc : clean = []
    · rw [if_pos hc]; decide
    · rw [if_neg hc]
      intro c hc'
      have h1 : c ∈ coll := stripEdgeUnderscore_subset coll c hc'
      have h2 : c ∈ wsu ∨ c = '_' :=
        collapseRunsF_mem (fun d => d = '_') '_' wsu.length wsu (Nat.le_refl _) c h1
      rcases h2 with h2 | h2
      · have h3 : (c ∈ filtered ∧ isJsWs c = false) ∨ c = '_' :=
          wsToUnderscoreF_mem filtered.length filtered (Nat.le_refl _) c h2
        rcases h3 with ⟨h3, hws⟩ | h3
        · have := List.of_mem_filter h3
          rcases Bool.or_eq_true_iff.mp this with h | h
          · exact Or.inl h
          · rw [h] at hws; simp at hws
        · exact Or.inr h3
      · exact Or.inr h2
  case _ =>
    by_cases hc : clean = []
    · rw [if_pos hc]
      refine noAdjacent_of_all_not _ _ ?_
      decide
    · rw [if_neg hc]
      exact chain'_stripEdgeUnderscore coll
        (collapseRunsF_chain (fun d => d = '_') '_' wsu.length wsu (Nat.le_refl _))
  case _ =>
    by_cases hc : clean = []
    · rw [if_pos hc]; decide
    · rw [if_neg hc]
      exact head_stripEdge_ne coll
        (collapseRunsF_chain (fun d => d = '_') '_' wsu.length wsu (Nat.le_refl _))
  case _ =>
    by_cases hc : clean = []
    · rw [if_pos hc]; decide
    · rw [if_neg hc]
      exact getLast_stripEdge_ne coll
        (collapseRunsF_chain (fun d => d = '_') '_' wsu.length wsu (Nat.le_refl _))

/-- C7: whenever the HTTP status is outside the success range,
`downloadFromUrl` fails with an `httpError` carrying the numeric status and
the server's status text; the failure is returned to the caller as an error
(the `catch` rethrows, nothing is swallowed) and the function makes exactly
one attempt — no retry exists in its code path. -/
theorem claim_C7 :
    ∀ (url : Str) (fname : Option Str) (resp : HttpResponse),
      resp.ok = false →
      downloadFromUrl url fname resp
        = Except.error (DownloadError.httpError resp.status resp.statusText) := by
  intro url fname resp h
  unfold downloadFromUrl
  rw [h]
  simp

/-- Witness for C7: a 404 response fails with `httpError 404`. -/
theorem claim_C7_witness :
    downloadFromUrl (strL "http://x/doc.docx") none
        ⟨404, strL "Not Found", 7, none⟩
      = Except.error (DownloadError.httpError 404 (strL "Not Found")) :=
  claim_C7 _ _ _ (by decide)

/-- C3 (amended): the zero-body check exists only in `handleDownloadFromLink`
(`SmartDashboard.jsx`), which fails with the empty-body error (`'Boş fayl
alındı'`) before any save is triggered; `TemplateDownloadHandler.downloadFromUrl`
performs no such check and delivers the zero-byte body as a normal save (see
the counterexample). -/
theorem claim_C3 :
    ∀ (url : Str) (fname : Str) (resp : HttpResponse),
      resp.ok = true → resp.blobSize = 0 →
      handleDownloadFromLink url fname resp
        = Except.error DownloadError.emptyBodyError := by
  intro url fname resp hok hsz
  unfold handleDownloadFromLink
  rw [hok, hsz]
  simp

/-- Witness for C3: a 200 response with an empty blob makes
`handleDownloadFromLink` fail with the empty-body error. -/
theorem claim_C3_witness :
    handleDownloadFromLink (strL "http://x") (strL "template")
        ⟨200, strL "OK", 0, none⟩
      = Except.error DownloadError.emptyBodyError :=
  claim_C3 _ _ _ (by decide) (by decide)

/-- Counterexample to C3 as stated: `downloadFromUrl` against a 200 response
with a zero-length body does not fail — it resolves a filename and triggers
the save of the empty file. -/
theorem claim_C3_cex :
    downloadFromUrl (strL "http://x.test/f.docx") none
        ⟨200, strL "OK", 0, none⟩
      = Except.ok ⟨strL "f.docx", 0⟩ := by
  rfl

/-- C5 (amended): `downloadFromUrl` resolves the saved filename in the
order: explicit (truthy) `suggestedFilename` argument; otherwise the
`filename=` token of the Content-Disposition header with *every* single- and
double-quote character removed (equal to surrounding-quote stripping exactly
when the value has no interior quotes — see the counterexample); otherwise
the last path segment of the URL, or the fixed fallback `download` when that
segment is empty; finally `.docx` is appended when the resolved name
contains no dot. -/
theorem claim_C5 :
    (∀ (s : Str) (cd : Option Str) (url : Str), s ≠ [] →
      resolveFilename (some s) cd url = some (ensureDocx s)) ∧
    (∀ (h url g : Str), cdSearch h = some g → g ≠ [] → removeQuotes g ≠ [] →
      resolveFilename none (some h) url = some (ensureDocx (removeQuotes g))) ∧
    (∀ url : Str,
      resolveFilename none
        (some (strL "attachment; filename=" ++ [dquote] ++ strL "report.pdf" ++ [dquote]))
        url = some (strL "report.pdf")) ∧
    (∀ (url p : Str), urlPathname url = some p →
      resolveFilename none none url
        = some (ensureDocx (if lastSegment p = [] then strL "download" else lastSegment p))) ∧
    (∀ f : Str, ('.' ∈ f → ensureDocx f = f) ∧ ('.' ∉ f → ensureDocx f = f ++ strL ".docx")) := by
  have h2 : ∀ (h url g : Str), cdSearch h = some g → g ≠ [] → removeQuotes g ≠ [] →
      resolveFilename none (some h) url = some (ensureDocx (removeQuotes g)) := by
    intro h url g hs hg hr
    simp [resolveFilename, resolveFilenameWith, hs, hg, hr]
  refine ⟨?_, h2, ?_, ?_, ?_⟩
  · intro s cd url hs
    simp [resolveFilename, resolveFilenameWith, hs]
  · intro url
    have hsearch :
        cdSearch (strL "attachment; filename=" ++ [dquote] ++ strL "report.pdf" ++ [dquote])
          = some ([dquote] ++ strL "report.pdf" ++ [dquote]) := by decide
    have h := h2 _ url _ hsearch (by decide) (by decide)
    rw [show removeQuotes ([dquote] ++ strL "report.pdf" ++ [dquote]) = strL "report.pdf"
          from by decide] at h
    rw [show ensureDocx (strL "report.pdf") = strL "report.pdf" from by decide] at h
    exact h
  · intro url p hp
    simp [resolveFilename, resolveFilenameWith, hp]
  · intro f
    constructor
    · intro hdot; simp [ensureDocx, hdot]
    · intro hdot; simp [ensureDocx, hdot]

/-- Witness for C5: the three resolution routes at concrete inputs, obtained
by applying the theorem. -/
theorem claim_C5_witness :
    resolveFilename (some (strL "given")) none (strL "zzz") = some (strL "given.docx") ∧
    resolveFilename none
      (some (strL "attachment; filename=" ++ [dquote] ++ strL "report.pdf" ++ [dquote]))
      (strL "not a url") = some (strL "report.pdf") ∧
    resolveFilename none none (strL "http://h/a/b.pdf") = some (strL "b.pdf") := by
  refine ⟨?_, claim_C5.2.2.1 (strL "not a url"), ?_⟩
  · have h := claim_C5.1 (strL "given") none (strL "zzz") (by decide)
    rw [show ensureDocx (strL "given") = strL "given.docx" from by decide] at h
    exact h
  · have h := claim_C5.2.2.2.1 (strL "http://h/a/b.pdf") (strL "/a/b.pdf") (by decide)
    rw [show (if lastSegment (strL "/a/b.pdf") = [] then strL "download"
          else lastSegment (strL "/a/b.pdf")) = strL "b.pdf" from by decide] at h
    rw [show ensureDocx (strL "b.pdf") = strL "b.pdf" from by decide] at h
    exact h

/-- Counterexample to C5 as stated: with header value
`attachment; filename=a"b.pdf` the code removes the interior quote and
resolves `ab.pdf`, whereas stripping only surrounding quotes (the claim's
wording) yields `a"b.pdf`. -/
theorem claim_C5_cex :
    resolveFilename none
        (some (strL "attachment; filename=a" ++ [dquote] ++ strL "b.pdf"))
        (strL "http://h/x.bin") = some (strL "ab.pdf") ∧
    resolveFilenameSpec none
        (some (strL "attachment; filename=a" ++ [dquote] ++ strL "b.pdf"))
        (strL "http://h/x.bin") = some (strL "a" ++ [dquote] ++ strL "b.pdf") ∧
    strL "ab.pdf" ≠ strL "a" ++ [dquote] ++ strL "b.pdf" := by
  refine ⟨by decide, by decide, by decide⟩

/-- A URL-shaped position: a case-insensitive `http://` or `https://` scheme
followed by at least one further character. -/
def schemeCharAt (s : Str) : Bool :=
  ((litP ciEq (strL "http://") s).isSome && decide (7 < s.length)) ||
  ((litP ciEq (strL "https://") s).isSome && decide (8 < s.length))

/-- Does the text contain a URL-shaped substring anywhere? -/
def hasUrlShape : Str → Bool
  | [] => false
  | c :: cs => schemeCharAt (c :: cs) || hasUrlShape cs

theorem hasUrlShape_of_scheme :
    ∀ {s : Str}, schemeCharAt s = true → hasUrlShape s = true := by
  intro s h
  cases s with
  | nil =>
    exfalso
    simp [schemeCharAt, litP, strL] at h
  | cons c cs => rw [hasUrlShape, h]; rfl

theorem hasUrlShape_cons (c : Char) {cs : Str} (h : hasUrlShape cs = true) :
    hasUrlShape (c :: cs) = true := by
  rw [hasUrlShape, h]
  simp

theorem hasUrlShape_append :
    ∀ (a : Str) {b : Str}, hasUrlShape b = true → hasUrlShape (a ++ b) = true := by
  intro a
  induction a with
  | nil => intro b h; simpa using h
  | cons c cs ih => intro b h; exact hasUrlShape_cons c (ih h)

theorem litP_compose {eqf : Char → Char → Bool} :
    ∀ {p1 p2 t a1 r1 a2 r2}, litP eqf p1 t = some (a1, r1) →
      litP eqf p2 r1 = some (a2, r2) →
      litP eqf (p1 ++ p2) t = some (a1 ++ a2, r2) := by
  intro p1
  induction p1 with
  | nil =>
    intro p2 t a1 r1 a2 r2 h1 h2
    simp [litP] at h1
    simpa [h1.1, h1.2] using h2
  | cons p ps ih =>
    intro p2 t a1 r1 a2 r2 h1 h2
    cases t with
    | nil => simp [litP] at h1
    | cons c cs =>
      simp only [litP] at h1
      by_cases hc : eqf p c
      · simp only [hc, if_pos, Option.map_eq_some'] at h1
        obtain ⟨⟨a', r'⟩, ha, hb⟩ := h1
        cases hb
        simp only [List.cons_append, litP, hc, if_pos, List.append_eq]
        rw [ih ha h2]
        rfl
      · simp [hc] at h1
  
theorem litP_mono {eqf1 eqf2 : Char → Char → Bool}
    (himp : ∀ a b, eqf1 a b = true → eqf2 a b = true) :
    ∀ {pat t a r}, litP eqf1 pat t = some (a, r) → litP eqf2 pat t = some (a, r) := by
  intro pat
  induction pat with
  | nil => intro t a r h; simpa [litP] using h
  | cons p ps ih =>
    intro t a r h
    cases t with
    | nil => simp [litP] at h
    | cons c cs =>
      simp only [litP] at h ⊢
      by_cases hc : eqf1 p c
      · rw [if_pos (himp _ _ hc)]
        simp only [hc, if_pos, Option.map_eq_some'] at h
        obtain ⟨⟨a', r'⟩, ha, hb⟩ := h
        rw [ih ha, Option.map_some']
        exact congrArg some hb
      · simp [hc] at h

theorem csEq_imp_ciEq : ∀ a b, csEq a b = true → ciEq a b = true := by
  intro a b h
  have : a = b := by simpa [csEq] using h
  simp [ciEq, this]

theorem urlBody_spec {bodyOk : Char → Bool} {pre r2 u r : Str}
    (h : urlBody bodyOk pre r2 = some (u, r)) :
    u ++ r = pre ++ r2 ∧ pre.length < u.length := by
  unfold urlBody at h
  by_cases hb : r2.takeWhile bodyOk = []
  · simp [hb] at h
  · simp only [hb, if_neg, ite_false] at h
    injection h with h2
    rw [Prod.mk.injEq] at h2
    obtain ⟨hu, hr⟩ := h2
    subst hu
    subst hr
    constructor
    · rw [List.append_assoc, List.takeWhile_append_dropWhile]
    · rw [List.length_append]
      have : 0 < (r2.takeWhile bodyOk).length := by
        cases hq : r2.takeWhile bodyOk with
        | nil => exact absurd hq hb
        | cons x xs => simp
      omega

theorem urlP_spec {eqf : Char → Char → Bool} {bodyOk : Char → Bool}
    (himp : ∀ a b, eqf a b = true → ciEq a b = true) :
    ∀ {t u r : Str}, urlP eqf bodyOk t = some (u, r) →
      u ++ r = t ∧ u ≠ [] ∧ schemeCharAt t = true := by
  intro t u r h
  unfold urlP at h
  cases h1 : litP eqf (strL "http") t with
  | none => rw [h1] at h; simp at h
  | some pr1 =>
    obtain ⟨h4, r1⟩ := pr1
    rw [h1] at h
    dsimp only at h
    cases h2 : litP eqf (strL "s://") r1 with
    | some pr2 =>
      obtain ⟨s4, r2⟩ := pr2
      rw [h2] at h
      have hb := urlBody_spec h
      have hcomp : litP eqf (strL "http" ++ strL "s://") t = some (h4 ++ s4, r2) :=
        litP_compose h1 h2
      have hcat : strL "http" ++ strL "s://" = strL "https://" := by decide
      rw [hcat] at hcomp
      have hci := litP_mono himp hcomp
      have hlen : (h4 ++ s4).length = 8 := by
        have := litP_eq hci
        simpa using this
      have happ : (h4 ++ s4) ++ r2 = t := litP_append hci
      refine ⟨by rw [hb.1, happ], ?_, ?_⟩
      · have : 8 < u.length := by rw [← hlen]; exact hb.2
        intro hu
        rw [hu] at this
        simp at this
      · have htl : 8 < t.length := by
          have h8 : 8 < u.length := by rw [← hlen]; exact hb.2
          have : u.length ≤ t.length := by
            calc u.length ≤ u.length + r.length := Nat.le_add_right _ _
            _ = (u ++ r).length := (List.length_append u r).symm
            _ = t.length := by rw [hb.1, happ]
          omega
        unfold schemeCharAt
        rw [hci]
        simp [htl]
    | none =>
      rw [h2] at h
      cases h3 : litP eqf (strL "://") r1 with
      | none => rw [h3] at h; simp at h
      | some pr3 =>
        obtain ⟨c3, r2⟩ := pr3
        rw [h3] at h
        have hb := urlBody_spec h
        have hcomp : litP eqf (strL "http" ++ strL "://") t = some (h4 ++ c3, r2) :=
          litP_compose h1 h3
        have hcat : strL "http" ++ strL "://" = strL "http://" := by decide
        rw [hcat] at hcomp
        have hci := litP_mono himp hcomp
        have hlen : (h4 ++ c3).length = 7 := by
          have := litP_eq hci
          simpa using this
        have happ : (h4 ++ c3) ++ r2 = t := litP_append hci
        refine ⟨by rw [hb.1, happ], ?_, ?_⟩
        · have : 7 < u.length := by rw [← hlen]; exact hb.2
          intro hu
          rw [hu] at this
          simp at this
        · have htl : 7 < t.length := by
            have h7 : 7 < u.length := by rw [← hlen]; exact hb.2
            have : u.length ≤ t.length := by
              calc u.length ≤ u.length + r.length := Nat.le_add_right _ _
              _ = (u ++ r).length := (List.length_append u r).symm
              _ = t.length := by rw [hb.1, happ]
            omega
          unfold schemeCharAt
          rw [hci]
          simp [htl]

theorem tryMarkdownAt_spec :
    ∀ {t : Str} {m : RawMatch}, tryMarkdownAt t = some m →
      m.full ≠ [] ∧ m.full ++ m.rest = t ∧ hasUrlShape t = true := by
  intro t m h
  cases t with
  | nil => simp [tryMarkdownAt] at h
  | cons c t1 =>
    unfold tryMarkdownAt at h
    dsimp only at h
    by_cases hc : c = '['
    · rw [if_pos hc] at h
      by_cases hl : t1.takeWhile (fun d => d != ']') = []
      · rw [if_pos hl] at h; simp at h
      · rw [if_neg hl] at h
        cases ht2 : t1.dropWhile (fun d => d != ']') with
        | nil => rw [ht2] at h; simp at h
        | cons b1 rest =>
          rw [ht2] at h
          cases rest with
          | nil => simp at h
          | cons b2 t3 =>
            dsimp only at h
            by_cases hb : b1 = ']' ∧ b2 = '('
            · rw [if_pos hb] at h
              cases hurl : urlP csEq (fun d => d != ')') t3 with
              | none => rw [hurl] at h; simp at h
              | some pr =>
                obtain ⟨u, t4⟩ := pr
                rw [hurl] at h
                dsimp only at h
                cases t4 with
                | nil => simp at h
                | cons d r =>
                  dsimp only at h
                  by_cases hd : d = ')'
                  · rw [if_pos hd] at h
                    set lab := t1.takeWhile (fun d => d != ']') with hlab
                    have hm : m = ⟨'[' :: (lab ++ ']' :: '(' :: (u ++ [')'])),
                        some lab, u, r⟩ := by
                      injection h with h'
                      exact h'.symm
                    have hspec := urlP_spec csEq_imp_ciEq hurl
                    have ht1 : lab ++ (b1 :: b2 :: t3) = t1 := by
                      rw [← ht2, hlab]
                      exact List.takeWhile_append_dropWhile _ _
                    have ht3 : u ++ (d :: r) = t3 := hspec.1
                    subst hm
                    refine ⟨by simp, ?_, ?_⟩
                    · show '[' :: (lab ++ ']' :: '(' :: (u ++ [')'])) ++ r = c :: t1
                      rw [hc, ← ht1, hb.1, hb.2, ← ht3, hd]
                      simp
                    · have hsh3 : hasUrlShape t3 = true :=
                        hasUrlShape_of_scheme hspec.2.2
                      have hsh1 : hasUrlShape t1 = true := by
                        rw [← ht1, hb.1, hb.2]
                        exact hasUrlShape_append _
                          (hasUrlShape_cons ']' (hasUrlShape_cons '(' hsh3))
                      exact hasUrlShape_cons c hsh1
                  · rw [if_neg hd] at h; simp at h
            · rw [if_neg hb] at h; simp at h
    · rw [if_neg hc] at h; simp at h

theorem ciEq_refl_imp : ∀ a b : Char, ciEq a b = true → ciEq a b = true :=
  fun _ _ h => h

theorem colonWsUrl1_spec :
    ∀ {rem sep u r : Str}, colonWsUrl1 rem = some (sep, u, r) →
      sep ++ (u ++ r) = rem ∧ hasUrlShape rem = true := by
  intro rem sep u r h
  cases rem with
  | nil => simp [colonWsUrl1] at h
  | cons c r2 =>
    rw [colonWsUrl1] at h
    by_cases hc : c = ':'
    · rw [if_pos hc] at h
      dsimp only at h
      cases hurl : urlP ciEq (fun d => !isJsWs d) (r2.dropWhile isJsWs) with
      | none => rw [hurl] at h; simp at h
      | some pr =>
        obtain ⟨u', r4⟩ := pr
        rw [hurl] at h
        dsimp only at h
        injection h with h'
        rw [Prod.mk.injEq, Prod.mk.injEq] at h'
        obtain ⟨rfl, rfl, rfl⟩ := h'
        have hspec := urlP_spec ciEq_refl_imp hurl
        constructor
        · rw [hc, List.cons_append, hspec.1, List.takeWhile_append_dropWhile]
        · rw [hc]
          refine hasUrlShape_cons ':' ?_
          rw [← List.takeWhile_append_dropWhile (p := isJsWs) (l := r2)]
          exact hasUrlShape_append _ (hasUrlShape_of_scheme hspec.2.2)
    · rw [if_neg hc] at h; simp at h

theorem colonWsUrl2_spec :
    ∀ {rem sep u r : Str}, colonWsUrl2 rem = some (sep, u, r) →
      sep ++ (u ++ r) = rem ∧ hasUrlShape rem = true := by
  intro rem sep u r h
  unfold colonWsUrl2 at h
  dsimp only at h
  cases hurl : urlP ciEq (fun d => !isJsWs d) (rem.dropWhile isJsWs) with
  | none => rw [hurl] at h; simp at h
  | some pr =>
    obtain ⟨u', r4⟩ := pr
    rw [hurl] at h
    dsimp only at h
    injection h with h'
    rw [Prod.mk.injEq, Prod.mk.injEq] at h'
    obtain ⟨rfl, rfl, rfl⟩ := h'
    have hspec := urlP_spec ciEq_refl_imp hurl
    constructor
    · rw [hspec.1, List.takeWhile_append_dropWhile]
    · rw [← List.takeWhile_append_dropWhile (p := isJsWs) (l := rem)]
      exact hasUrlShape_append _ (hasUrlShape_of_scheme hspec.2.2)

theorem colonWsUrl_spec :
    ∀ {rem sep u r : Str}, colonWsUrl rem = some (sep, u, r) →
      sep ++ (u ++ r) = rem ∧ hasUrlShape rem = true := by
  intro rem sep u r h
  unfold colonWsUrl at h
  cases h1 : colonWsUrl1 rem with
  | some x =>
    rw [h1] at h
    simp only [Option.some_orElse] at h
    cases h
    exact colonWsUrl1_spec h1
  | none =>
    rw [h1] at h
    simp only [Option.none_orElse] at h
    exact colonWsUrl2_spec h

theorem wsColonWsUrl_spec :
    ∀ {rem sep u r : Str}, wsColonWsUrl rem = some (sep, u, r) →
      sep ++ (u ++ r) = rem ∧ hasUrlShape rem = true := by
  intro rem sep u r h
  unfold wsColonWsUrl at h
  dsimp only at h
  cases h1 : colonWsUrl (rem.dropWhile isJsWs) with
  | none => rw [h1] at h; simp at h
  | some x =>
    obtain ⟨sep', u', r'⟩ := x
    rw [h1] at h
    dsimp only at h
    injection h with h'
    rw [Prod.mk.injEq, Prod.mk.injEq] at h'
    obtain ⟨rfl, rfl, rfl⟩ := h'
    have hspec := colonWsUrl_spec h1
    constructor
    · rw [List.append_assoc, hspec.1, List.takeWhile_append_dropWhile]
    · rw [← List.takeWhile_append_dropWhile (p := isJsWs) (l := rem)]
      exact hasUrlShape_append _ hspec.2

theorem tryEmojiSplit_spec :
    ∀ {t1 : Str} {k : Nat} {m : RawMatch}, tryEmojiSplit t1 k = some m →
      m.full ≠ [] ∧ m.full ++ m.rest = '📥' :: t1 ∧ hasUrlShape t1 = true := by
  intro t1 k m h
  unfold tryEmojiSplit at h
  cases h1 : colonWsUrl (t1.drop k) with
  | none => rw [h1] at h; simp at h
  | some x =>
    obtain ⟨sep, u, r⟩ := x
    rw [h1] at h
    dsimp only at h
    injection h with h'
    subst h'
    have hspec := colonWsUrl_spec h1
    refine ⟨by simp, ?_, ?_⟩
    · show '📥' :: (t1.take k ++ sep ++ u) ++ r = '📥' :: t1
      rw [List.cons_append]
      rw [List.append_assoc, List.append_assoc, hspec.1, List.take_append_drop]
    · rw [← List.take_append_drop k t1]
      exact hasUrlShape_append _ hspec.2

theorem emojiLoop_spec {t1 : Str} :
    ∀ (k : Nat) {m : RawMatch}, emojiLoop t1 k = some m →
      m.full ≠ [] ∧ m.full ++ m.rest = '📥' :: t1 ∧ hasUrlShape t1 = true := by
  intro k
  induction k with
  | zero => intro m h; exact tryEmojiSplit_spec (by simpa [emojiLoop] using h)
  | succ k ih =>
    intro m h
    rw [emojiLoop] at h
    cases h1 : tryEmojiSplit t1 (k + 1) with
    | some x =>
      rw [h1] at h
      simp only [Option.some_orElse] at h
      cases h
      exact tryEmojiSplit_spec h1
    | none =>
      rw [h1] at h
      simp only [Option.none_orElse] at h
      exact ih h

theorem tryEmojiAt_spec :
    ∀ {t : Str} {m : RawMatch}, tryEmojiAt t = some m →
      m.full ≠ [] ∧ m.full ++ m.rest = t ∧ hasUrlShape t = true := by
  intro t m h
  cases t with
  | nil => simp [tryEmojiAt] at h
  | cons c t1 =>
    rw [tryEmojiAt] at h
    by_cases hc : c = '📥'
    · rw [if_pos hc] at h
      have := emojiLoop_spec _ h
      refine ⟨this.1, ?_, hasUrlShape_cons c this.2.2⟩
      rw [this.2.1, hc]
    · rw [if_neg hc] at h; simp at h

theorem tryBoldAt_spec :
    ∀ {t : Str} {m : RawMatch}, tryBoldAt t = some m →
      m.full ≠ [] ∧ m.full ++ m.rest = t ∧ hasUrlShape t = true := by
  intro t m h
  match t with
  | [] => simp [tryBoldAt] at h
  | [a] => simp [tryBoldAt] at h
  | a :: b :: t1 =>
    rw [tryBoldAt] at h
    by_cases hab : a = '*' ∧ b = '*'
    · rw [if_pos hab] at h
      dsimp only at h
      cases ht2 : t1.dropWhile (fun c => c != '*') with
      | nil => rw [ht2] at h; simp at h
      | cons a2 rest =>
        rw [ht2] at h
        cases rest with
        | nil => simp at h
        | cons b2 t3 =>
          dsimp only at h
          by_cases hab2 : a2 = '*' ∧ b2 = '*'
          · rw [if_pos hab2] at h
            by_cases hio : ciHasInOrder (strL "yükləmə") (strL "linki")
                (t1.takeWhile (fun c => c != '*')) = true
            · rw [if_pos hio] at h
              cases hw : wsColonWsUrl t3 with
              | none => rw [hw] at h; simp at h
              | some x =>
                obtain ⟨sep, u, r⟩ := x
                rw [hw] at h
                dsimp only at h
                injection h with h'
                subst h'
                have hspec := wsColonWsUrl_spec hw
                set body := t1.takeWhile (fun c => c != '*') with hbody
                have ht1 : body ++ (a2 :: b2 :: t3) = t1 := by
                  rw [← ht2, hbody]
                  exact List.takeWhile_append_dropWhile _ _
                refine ⟨by simp, ?_, ?_⟩
                · show '*' :: '*' :: (body ++ '*' :: '*' :: (sep ++ u)) ++ r
                      = a :: b :: t1
                  rw [hab.1, hab.2, ← ht1, hab2.1, hab2.2, ← hspec.1]
                  simp
                · have hsh1 : hasUrlShape t1 = true := by
                    rw [← ht1, hab2.1, hab2.2]
                    exact hasUrlShape_append _
                      (hasUrlShape_cons '*' (hasUrlShape_cons '*' hspec.2))
                  exact hasUrlShape_cons a (hasUrlShape_cons b hsh1)
            · rw [if_neg (by simpa using hio)] at h; simp at h
          · rw [if_neg hab2] at h; simp at h
    · rw [if_neg hab] at h; simp at h

theorem tryKeywordAlt_spec {alt : Str} (halt : alt ≠ []) :
    ∀ {t : Str} {m : RawMatch}, tryKeywordAlt alt t = some m →
      m.full ≠ [] ∧ m.full ++ m.rest = t ∧ hasUrlShape t = true := by
  intro t m h
  unfold tryKeywordAlt at h
  cases h1 : litP ciEq alt t with
  | none => rw [h1] at h; simp at h
  | some pr =>
    obtain ⟨kw, r0⟩ := pr
    rw [h1] at h
    dsimp only at h
    cases hw : wsColonWsUrl r0 with
    | none => rw [hw] at h; simp at h
    | some x =>
      obtain ⟨sep, u, r⟩ := x
      rw [hw] at h
      dsimp only at h
      injection h with h'
      subst h'
      have hspec := wsColonWsUrl_spec hw
      have hkw : kw ≠ [] := by
        intro hk
        apply halt
        have hlen := litP_eq h1
        rw [hk] at hlen
        exact List.length_eq_zero.mp hlen.symm
      refine ⟨fun hfull => hkw (List.append_eq_nil.mp hfull).1, ?_, ?_⟩
      · show kw ++ (sep ++ u) ++ r = t
        rw [List.append_assoc, List.append_assoc sep u r, hspec.1]
        exact litP_append h1
      · rw [← litP_append h1]
        exact hasUrlShape_append _ hspec.2

theorem tryKeywordAt_spec :
    ∀ {t : Str} {m : RawMatch}, tryKeywordAt t = some m →
      m.full ≠ [] ∧ m.full ++ m.rest = t ∧ hasUrlShape t = true := by
  intro t m h
  unfold tryKeywordAt at h
  cases h1 : tryKeywordAlt (strL "yükləmə linki") t with
  | some x =>
    rw [h1] at h
    simp only [Option.some_orElse] at h
    cases h
    exact tryKeywordAlt_spec (by decide) h1
  | none =>
    rw [h1] at h
    simp only [Option.none_orElse] at h
    cases h2 : tryKeywordAlt (strL "download link") t with
    | some x =>
      rw [h2] at h
      simp only [Option.some_orElse] at h
      cases h
      exact tryKeywordAlt_spec (by decide) h2
    | none =>
      rw [h2] at h
      simp only [Option.none_orElse] at h
      exact tryKeywordAlt_spec (by decide) h

/-- Anchored-matcher well-formedness: every match is nonempty, consumes a
front segment of its input, and witnesses a URL-shaped substring. -/
def MatcherSpec (f : Str → Option RawMatch) : Prop :=
  ∀ {s : Str} {m : RawMatch}, f s = some m →
    m.full ≠ [] ∧ m.full ++ m.rest = s ∧ hasUrlShape s = true

theorem findMatch_spec {f : Str → Option RawMatch} (hf : MatcherSpec f) :
    ∀ {t : Str} {m : RawMatch}, findMatch f t = some m →
      m.rest.length < t.length ∧ hasUrlShape t = true := by
  intro t
  induction t with
  | nil => intro m h; simp [findMatch] at h
  | cons c cs ih =>
    intro m h
    rw [findMatch] at h
    cases h1 : f (c :: cs) with
    | some x =>
      rw [h1] at h
      simp only [Option.some_orElse] at h
      cases h
      have hs := hf h1
      constructor
      · have := congrArg List.length hs.2.1
        rw [List.length_append] at this
        have hpos : 0 < m.full.length := by
          cases hq : m.full with
          | nil => exact absurd hq hs.1
          | cons x xs => simp
        omega
      · exact hs.2.2
    | none =>
      rw [h1] at h
      simp only [Option.none_orElse] at h
      have := ih h
      exact ⟨Nat.lt_trans this.1 (by simp), hasUrlShape_cons c this.2⟩

theorem scanFuel_nil_of_no_shape {f : Str → Option RawMatch} (hf : MatcherSpec f) :
    ∀ (fuel : Nat) (t : Str), hasUrlShape t = false → scanFuel f fuel t = [] := by
  intro fuel t ht
  cases fuel with
  | zero => rfl
  | succ fuel =>
    rw [scanFuel]
    cases h1 : findMatch f t with
    | none => rfl
    | some m =>
      exfalso
      have := (findMatch_spec hf h1).2
      rw [ht] at this
      exact Bool.false_ne_true this

theorem scanFuel_congr {f : Str → Option RawMatch} (hf : MatcherSpec f) :
    ∀ (n : Nat) (t : Str), t.length ≤ n →
      ∀ (fuel1 fuel2 : Nat), t.length < fuel1 → t.length < fuel2 →
        scanFuel f fuel1 t = scanFuel f fuel2 t := by
  intro n
  induction n with
  | zero =>
    intro t ht fuel1 fuel2 h1 h2
    have htn : t = [] := List.length_eq_zero.mp (Nat.le_zero.mp ht)
    subst htn
    cases fuel1 with
    | zero => omega
    | succ a =>
      cases fuel2 with
      | zero => omega
      | succ b =>
        rw [scanFuel, scanFuel]
        cases hm : findMatch f [] with
        | none => rfl
        | some m =>
          exfalso
          have := (findMatch_spec hf hm).1
          simp at this
  | succ n ih =>
    intro t ht fuel1 fuel2 h1 h2
    cases fuel1 with
    | zero => omega
    | succ a =>
      cases fuel2 with
      | zero => omega
      | succ b =>
        rw [scanFuel, scanFuel]
        cases hm : findMatch f t with
        | none => rfl
        | some m =>
          dsimp only
          have hrest := (findMatch_spec hf hm).1
          have hle : m.rest.length ≤ n := by omega
          rw [ih m.rest hle a b (by omega) (by omega)]

theorem scanFuel_eq_scanAll {f : Str → Option RawMatch} (hf : MatcherSpec f) :
    ∀ (fuel : Nat) (t : Str), t.length < fuel → scanFuel f fuel t = scanAll f t := by
  intro fuel t h
  exact scanFuel_congr hf t.length t (Nat.le_refl _) fuel (t.length + 1) h (Nat.lt_succ_self _)

theorem matcherSpec_of_mem :
    ∀ p ∈ DOWNLOAD_LINK_PATTERNS, MatcherSpec p.tryAt := by
  intro p hp
  simp only [DOWNLOAD_LINK_PATTERNS, List.mem_cons, List.not_mem_nil, or_false] at hp
  rcases hp with rfl | rfl | rfl | rfl
  · exact fun h => tryMarkdownAt_spec h
  · exact fun h => tryEmojiAt_spec h
  · exact fun h => tryBoldAt_spec h
  · exact fun h => tryKeywordAt_spec h

/-- C9: the repeated-match scan of `parseDownloadLinks` terminates on every
input: every match any of the four patterns produces is nonempty and
consumes a front segment, so the scan position strictly advances, and any
fuel beyond the text length yields the same (complete) match list — no
input can make the loop run forever. -/
theorem claim_C9 :
    ∀ p ∈ DOWNLOAD_LINK_PATTERNS,
      (∀ (t : Str) (m : RawMatch), p.tryAt t = some m →
        m.full ≠ [] ∧ m.full ++ m.rest = t) ∧
      (∀ (fuel : Nat) (t : Str), t.length < fuel →
        scanFuel p.tryAt fuel t = scanAll p.tryAt t) := by
  intro p hp
  have hs : MatcherSpec p.tryAt := matcherSpec_of_mem p hp
  exact ⟨fun t m h => ⟨(hs h).1, (hs h).2.1⟩,
         fun fuel t h => scanFuel_eq_scanAll hs fuel t h⟩

/-- Witness for C9: with any surplus fuel the markdown scan of a concrete
text equals the canonical scan. -/
theorem claim_C9_witness :
    scanFuel tryMarkdownAt 99 (strL "[a](http://b)")
      = scanAll tryMarkdownAt (strL "[a](http://b)") :=
  (claim_C9 ⟨tryMarkdownAt, .markdown, none, 1⟩
    (by simp [DOWNLOAD_LINK_PATTERNS])).2 99 (strL "[a](http://b)") (by decide)

theorem insertLink_perm (x : DLink) :
    ∀ (l : List DLink), (insertLink x l).Perm (x :: l) := by
  intro l
  induction l with
  | nil => simp [insertLink]
  | cons y ys ih =>
    rw [insertLink]
    by_cases h : x.priority ≤ y.priority
    · rw [if_pos h]
    · rw [if_neg h]
      exact List.Perm.trans (List.Perm.cons y ih) (List.Perm.swap x y ys)

theorem sortByPriority_perm : ∀ (l : List DLink), (sortByPriority l).Perm l := by
  intro l
  induction l with
  | nil => simp [sortByPriority]
  | cons a l ih =>
    have hfold : sortByPriority (a :: l) = insertLink a (sortByPriority l) := rfl
    rw [hfold]
    exact List.Perm.trans (insertLink_perm _ _) (List.Perm.cons a ih)

theorem mem_insertLink {x y : DLink} {l : List DLink} :
    y ∈ insertLink x l ↔ y = x ∨ y ∈ l := by
  rw [(insertLink_perm x l).mem_iff]
  simp

theorem insertLink_pairwise (x : DLink) :
    ∀ {l : List DLink},
      l.Pairwise (fun a b => a.priority ≤ b.priority) →
      (insertLink x l).Pairwise (fun a b => a.priority ≤ b.priority) := by
  intro l
  induction l with
  | nil => intro _; simp [insertLink]
  | cons y ys ih =>
    intro h
    rw [insertLink]
    by_cases hxy : x.priority ≤ y.priority
    · rw [if_pos hxy]
      rw [List.pairwise_cons]
      refine ⟨?_, h⟩
      intro b hb
      rcases List.mem_cons.mp hb with rfl | hb
      · exact hxy
      · exact Nat.le_trans hxy ((List.pairwise_cons.mp h).1 b hb)
    · rw [if_neg hxy]
      rw [List.pairwise_cons] at h ⊢
      refine ⟨?_, ih h.2⟩
      intro b hb
      rcases mem_insertLink.mp hb with rfl | hb
      · omega
      · exact h.1 b hb

theorem sortByPriority_pairwise (l : List DLink) :
    (sortByPriority l).Pairwise (fun a b => a.priority ≤ b.priority) := by
  induction l with
  | nil => simp [sortByPriority]
  | cons a l ih =>
    have hfold : sortByPriority (a :: l) = insertLink a (sortByPriority l) := rfl
    rw [hfold]
    exact insertLink_pairwise a ih

theorem insertLink_front {x : DLink} {l : List DLink}
    (h : ∀ y ∈ l.head?, x.priority ≤ y.priority) : insertLink x l = x :: l := by
  cases l with
  | nil => rfl
  | cons y ys =>
    rw [insertLink, if_pos (h y (by simp))]

theorem sortByPriority_eq_self :
    ∀ {l : List DLink}, l.Pairwise (fun a b => a.priority ≤ b.priority) →
      sortByPriority l = l := by
  intro l
  induction l with
  | nil => intro _; rfl
  | cons a l ih =>
    intro h
    have hfold : sortByPriority (a :: l) = insertLink a (sortByPriority l) := rfl
    rw [hfold, ih (List.pairwise_cons.mp h).2]
    refine insertLink_front ?_
    intro y hy
    cases l with
    | nil => simp at hy
    | cons b bs =>
      have : b = y := by simpa using hy
      exact this ▸ (List.pairwise_cons.mp h).1 b (by simp)

/-- Invariant of the dedup fold of `parseDownloadLinks`: the raw captured
URLs of the pushed links are pairwise distinct, each is in the processed
set, and each pushed link passed the validity check (nonempty raw URL
starting with `http`) and stores the trimmed raw URL. -/
def ParseInv (st : List Str × List (Str × DLink)) : Prop :=
  ((st.2.map Prod.fst).Nodup) ∧
  (∀ x ∈ st.2, x.1 ∈ st.1) ∧
  (∀ x ∈ st.2, x.1 ≠ [] ∧ (strL "http").isPrefixOf x.1 = true ∧ x.2.url = trimStr x.1)

theorem processMatch_inv {p : LinkPattern}
    {st : List Str × List (Str × DLink)} {m : RawMatch}
    (h : ParseInv st) : ParseInv (processMatch p st m) := by
  obtain ⟨hnd, hsub, hgood⟩ := h
  unfold processMatch
  by_cases h1 : m.url ∈ st.1
  · rw [if_pos h1]; exact ⟨hnd, hsub, hgood⟩
  · rw [if_neg h1]
    by_cases h2 : m.url = [] ∨ (strL "http").isPrefixOf m.url = false
    · rw [if_pos h2]; exact ⟨hnd, hsub, hgood⟩
    · rw [if_neg h2]
      push_neg at h2
      obtain ⟨hne, hpre⟩ := h2
      simp only [ne_eq, Bool.not_eq_false] at hpre
      refine ⟨?_, ?_, ?_⟩
      · rw [List.map_append, List.nodup_append]
        refine ⟨hnd, by simp, ?_⟩
        intro a ha hb
        simp only [List.map_cons, List.map_nil, List.mem_singleton] at hb
        subst hb
        rcases List.mem_map.mp ha with ⟨x, hx, hx1⟩
        exact h1 (hx1 ▸ hsub x hx)
      · intro x hx
        rcases List.mem_append.mp hx with hx | hx
        · exact List.mem_cons_of_mem _ (hsub x hx)
        · have : x = (m.url, ⟨mkText p m, trimStr m.url, p.type, m.full, p.priority⟩) := by
            simpa using hx
          rw [this]
          exact List.mem_cons_self _ _
      · intro x hx
        rcases List.mem_append.mp hx with hx | hx
        · exact hgood x hx
        · have : x = (m.url, ⟨mkText p m, trimStr m.url, p.type, m.full, p.priority⟩) := by
            simpa using hx
          rw [this]
          exact ⟨hne, hpre, rfl⟩

theorem foldl_processMatch_inv (p : LinkPattern) :
    ∀ (ms : List RawMatch) {st}, ParseInv st →
      ParseInv (ms.foldl (processMatch p) st) := by
  intro ms
  induction ms with
  | nil => intro st h; exact h
  | cons m ms ih => intro st h; exact ih (processMatch_inv h)

theorem foldl_runPattern_inv (t : Str) :
    ∀ (ps : List LinkPattern) {st}, ParseInv st →
      ParseInv (ps.foldl (runPattern t) st) := by
  intro ps
  induction ps with
  | nil => intro st h; exact h
  | cons p ps ih =>
    intro st h
    exact ih (foldl_processMatch_inv p _ h)

theorem discoverAnnotated_inv (t : Str) :
    ParseInv (DOWNLOAD_LINK_PATTERNS.foldl (runPattern t) ([], [])) :=
  foldl_runPattern_inv t DOWNLOAD_LINK_PATTERNS ⟨by simp, by simp, by simp⟩

/-- C1 (amended): dedup keys on the raw captured URL (`match[urlIndex]`,
before trimming): within one call no two pushed links share the same raw
captured URL, and when the identical URL string is captured by two different
pattern shapes exactly one DiscoveredLink is returned, carrying the kind and
label of the lower-priority-number pattern.  The stored `url` field is the
*trimmed* capture, and two distinct raw captures (differing only in trailing
whitespace inside a markdown `(...)`) can trim to the same url — see the
counterexample. -/
theorem claim_C1 :
    (∀ t : Str, ((discoverAnnotated t).map Prod.fst).Nodup) ∧
    parseDownloadLinks (strL "[Click](http://x.y) 📥 Yüklə: http://x.y")
      = [⟨strL "Click", strL "http://x.y", .markdown, strL "[Click](http://x.y)", 1⟩] := by
  constructor
  · intro t
    exact (discoverAnnotated_inv t).1
  · decide

/-- Counterexample to C1 as stated: a markdown capture with a trailing space
and an emoji capture of the same URL dedup as different raw strings, so two
entries with the same (trimmed) `url` are returned. -/
theorem claim_C1_cex :
    (parseDownloadLinks (strL "[x](http://a ) 📥: http://a")).map DLink.url
      = [strL "http://a", strL "http://a"] := by
  decide

theorem http_isPrefixOf_shape :
    ∀ {u : Str}, (strL "http").isPrefixOf u = true →
      ∃ v, u = 'h' :: 't' :: 't' :: 'p' :: v := by
  intro u h
  have hs : strL "http" = 'h' :: 't' :: 't' :: 'p' :: [] := rfl
  rw [hs] at h
  rcases u with _ | ⟨c1, u⟩
  · simp [List.isPrefixOf] at h
  rcases u with _ | ⟨c2, u⟩
  · simp [List.isPrefixOf] at h
  rcases u with _ | ⟨c3, u⟩
  · simp [List.isPrefixOf] at h
  rcases u with _ | ⟨c4, v⟩
  · simp [List.isPrefixOf] at h
  simp only [List.isPrefixOf, Bool.and_eq_true, beq_iff_eq] at h
  obtain ⟨h1, h2, h3, h4, -⟩ := h
  exact ⟨v, by rw [← h1, ← h2, ← h3, ← h4]⟩

theorem trimRight_cons_of_not_ws {c : Char} (hc : isJsWs c = false) (l : Str) :
    trimRight (c :: l) = c :: trimRight l := by
  rw [trimRight]
  cases htr : trimRight l with
  | nil => simp [hc]
  | cons d ds => rfl

theorem trimStr_http {u : Str} (h : (strL "http").isPrefixOf u = true) :
    (strL "http").isPrefixOf (trimStr u) = true ∧ trimStr u ≠ [] := by
  obtain ⟨v, rfl⟩ := http_isPrefixOf_shape h
  unfold trimStr
  have hdrop : ('h' :: 't' :: 't' :: 'p' :: v).dropWhile isJsWs
      = 'h' :: 't' :: 't' :: 'p' :: v := by
    rw [List.dropWhile_cons]
    simp [show isJsWs 'h' = false from by decide]
  rw [hdrop]
  rw [trimRight_cons_of_not_ws (by decide), trimRight_cons_of_not_ws (by decide),
      trimRight_cons_of_not_ws (by decide), trimRight_cons_of_not_ws (by decide)]
  constructor
  · have hs : strL "http" = 'h' :: 't' :: 't' :: 'p' :: [] := rfl
    rw [hs]
    simp [List.isPrefixOf]
  · simp

theorem foldl_id_of_fix {α β : Type} (f : α → β → α) :
    ∀ (ps : List β) (st : α), (∀ (st' : α) (p : β), p ∈ ps → f st' p = st') →
      ps.foldl f st = st := by
  intro ps
  induction ps with
  | nil => intro st _; rfl
  | cons p ps ih =>
    intro st h
    rw [List.foldl_cons, h st p (by simp)]
    exact ih st (fun st' q hq => h st' q (List.mem_cons_of_mem p hq))

/-- C8: a text with no URL-shaped substring (no case-insensitive
`http(s)://` scheme followed by a character) yields the empty link list;
and every returned DiscoveredLink has a nonempty url that begins with
`http` — a match whose capture fails that check is skipped silently (the
skip is a `continue`, no error path exists). -/
theorem claim_C8 :
    (∀ t : Str, hasUrlShape t = false → parseDownloadLinks t = []) ∧
    (∀ (t : Str) (l : DLink), l ∈ parseDownloadLinks t →
      l.url ≠ [] ∧ (strL "http").isPrefixOf l.url = true) := by
  constructor
  · intro t ht
    have hrun : ∀ (st : List Str × List (Str × DLink)) (p : LinkPattern),
        p ∈ DOWNLOAD_LINK_PATTERNS → runPattern t st p = st := by
      intro st p hp
      unfold runPattern
      rw [show scanAll p.tryAt t = [] from
        scanFuel_nil_of_no_shape (matcherSpec_of_mem p hp) _ t ht]
      rfl
    unfold parseDownloadLinks discoverAnnotated
    rw [foldl_id_of_fix (runPattern t) DOWNLOAD_LINK_PATTERNS ([], []) hrun]
    rfl
  · intro t l hl
    have hl' : l ∈ (discoverAnnotated t).map Prod.snd :=
      (sortByPriority_perm _).mem_iff.mp hl
    rcases List.mem_map.mp hl' with ⟨x, hx, hx2⟩
    have hgood := (discoverAnnotated_inv t).2.2 x hx
    have htrim := trimStr_http hgood.2.1
    rw [← hx2, hgood.2.2]
    exact ⟨htrim.2, htrim.1⟩

theorem foldl_processMatch_append (p : LinkPattern) :
    ∀ (ms : List RawMatch) (st : List Str × List (Str × DLink)),
      ∃ new, (ms.foldl (processMatch p) st).2 = st.2 ++ new ∧
        ∀ x ∈ new, (x : Str × DLink).2.priority = p.priority := by
  intro ms
  induction ms with
  | nil => intro st; exact ⟨[], by simp, by simp⟩
  | cons m ms ih =>
    intro st
    rw [List.foldl_cons]
    obtain ⟨new, hnew, hpri⟩ := ih (processMatch p st m)
    have hcase : ∃ new0, (processMatch p st m).2 = st.2 ++ new0 ∧
        ∀ x ∈ new0, (x : Str × DLink).2.priority = p.priority := by
      unfold processMatch
      by_cases h1 : m.url ∈ st.1
      · rw [if_pos h1]; exact ⟨[], by simp, by simp⟩
      · rw [if_neg h1]
        by_cases h2 : m.url = [] ∨ (strL "http").isPrefixOf m.url = false
        · rw [if_pos h2]; exact ⟨[], by simp, by simp⟩
        · rw [if_neg h2]
          exact ⟨[(m.url, ⟨mkText p m, trimStr m.url, p.type, m.full, p.priority⟩)],
            rfl, by simp⟩
    obtain ⟨new0, h0, hp0⟩ := hcase
    refine ⟨new0 ++ new, ?_, ?_⟩
    · rw [hnew, h0, List.append_assoc]
    · intro x hx
      rcases List.mem_append.mp hx with hx | hx
      · exact hp0 x hx
      · exact hpri x hx

theorem foldl_runPattern_sorted (t : Str) :
    ∀ (ps : List LinkPattern) (st : List Str × List (Str × DLink)),
      ps.Pairwise (fun a b => a.priority ≤ b.priority) →
      (∀ x ∈ st.2, ∀ q ∈ ps, (x : Str × DLink).2.priority ≤ q.priority) →
      (st.2.map Prod.snd).Pairwise (fun a b => a.priority ≤ b.priority) →
      ((ps.foldl (runPattern t) st).2.map Prod.snd).Pairwise
        (fun a b => a.priority ≤ b.priority) := by
  intro ps
  induction ps with
  | nil => intro st _ _ h; exact h
  | cons p ps ih =>
    intro st hps hbound hsorted
    rw [List.foldl_cons]
    obtain ⟨new, hnew, hpri⟩ := foldl_processMatch_append p (scanAll p.tryAt t) st
    have hnew' : (runPattern t st p).2 = st.2 ++ new := hnew
    apply ih
    · exact (List.pairwise_cons.mp hps).2
    · intro x hx q hq
      rw [hnew'] at hx
      rcases List.mem_append.mp hx with hx | hx
      · exact hbound x hx q (List.mem_cons_of_mem p hq)
      · rw [hpri x hx]
        exact (List.pairwise_cons.mp hps).1 q hq
    · rw [hnew', List.map_append]
      rw [List.pairwise_append]
      refine ⟨hsorted, ?_, ?_⟩
      · rw [List.pairwise_map]
        refine List.pairwise_of_forall_mem_list ?_
        intro a ha b hb
        rw [hpri a ha, hpri b hb]
      · intro a ha b hb
        rcases List.mem_map.mp ha with ⟨x, hx, rfl⟩
        rcases List.mem_map.mp hb with ⟨y, hy, rfl⟩
        rw [hpri y hy]
        exact hbound x hx p (by simp)

theorem discoverAnnotated_sorted (t : Str) :
    ((discoverAnnotated t).map Prod.snd).Pairwise
      (fun a b => a.priority ≤ b.priority) := by
  unfold discoverAnnotated
  apply foldl_runPattern_sorted
  · simp [DOWNLOAD_LINK_PATTERNS, List.pairwise_cons]
  · intro x hx
    simp at hx
  · simp

/-- C2: the returned list is sorted ascending by `priority`; the final
stable sort leaves the discovery order unchanged (the patterns are scanned
in ascending priority order, so entries of equal priority keep the order in
which they were discovered); and on the example text the markdown entry
(priority 1, label `Click`) precedes the emoji entry (priority 2, label
`Yüklə`). -/
theorem claim_C2 :
    (∀ t : Str,
      (parseDownloadLinks t).Pairwise (fun a b => a.priority ≤ b.priority)) ∧
    (∀ t : Str, parseDownloadLinks t = (discoverAnnotated t).map Prod.snd) ∧
    parseDownloadLinks
        (strL "📥 Yüklə: https://x.test/a.docx and [Click](https://x.test/b.docx)")
      = [⟨strL "Click", strL "https://x.test/b.docx", .markdown,
          strL "[Click](https://x.test/b.docx)", 1⟩,
         ⟨strL "Yüklə", strL "https://x.test/a.docx", .emoji_direct,
          strL "📥 Yüklə: https://x.test/a.docx", 2⟩] := by
  refine ⟨?_, ?_, by decide⟩
  · intro t
    exact sortByPriority_pairwise _
  · intro t
    exact sortByPriority_eq_self (discoverAnnotated_sorted t)

/-- Witness for C1: the raw-URL dedup keys of a concrete extraction are
pairwise distinct. -/
theorem claim_C1_witness :
    ((discoverAnnotated (strL "[a](http://b) 📥: http://b")).map Prod.fst).Nodup :=
  claim_C1.1 _

/-- Witness for C2: on a concrete text the sort leaves discovery order
unchanged. -/
theorem claim_C2_witness :
    parseDownloadLinks (strL "yüklə: http://w.z")
      = (discoverAnnotated (strL "yüklə: http://w.z")).map Prod.snd :=
  claim_C2.2.1 _

/-- Witness for C6: a concrete generated filename is nonempty. -/
theorem claim_C6_witness :
    generateFilename (strL "A b") (strL "docx") ≠ [] := by
  obtain ⟨base, heq, hne, -, -, -, -⟩ := claim_C6.1 (strL "A b") (strL "docx")
  rw [heq]
  simp

/-- Witness for C8: a concrete text without URL shape extracts nothing. -/
theorem claim_C8_witness :
    parseDownloadLinks (strL "salam dünya") = [] :=
  claim_C8.1 _ (by decide)

/-- Witness for C10: a concrete sanitised string has no adjacent
whitespace. -/
theorem claim_C10_witness :
    noAdjacent isJsWs (removeDownloadLinks (strL "p  q") []) :=
  claim_C10.1 _ _
